import Mathlib

/-!
Verification of core components of the Charon transport library
(xaya/charon).  Charon tunnels JSON-RPC calls and long-polling
notification updates over XMPP.  This development shallowly embeds the
parts of the C++ source that the checked claims are about:

* the XML payload codec (`xmldata.cpp`): raw / base64 / zlib child
  encodings with the 64 MiB size cap;
* the typed stanza model (`stanzas.cpp`): RpcRequest, RpcResponse,
  Pong, SupportedNotifications, NotificationUpdate;
* the waiter loop iteration (`waiterthread.cpp`);
* the client's discovery / selection / RPC correlation logic
  (`client.cpp`) and the server's IQ and ping handling (`server.cpp`).

External libraries used by the C++ code (gloox XML tags, the jsoncpp
JSON reader/writer, OpenSSL's base64 primitives, zlib) are modelled as
executable Lean definitions; each such model carries a doc comment
explaining what it stands for.  Byte strings (std::string) are
modelled as `List Nat` of byte values.
-/

namespace Charon

/-- Byte strings: the model of C++ std::string (a sequence of bytes). -/
abbrev Str : Type := List Nat

/-- Bytes of an ASCII string literal, for concrete inputs in examples. -/
def bytes (s : String) : Str := s.data.map Char.toNat

/-- ASCII decimal digit test. -/
def isDigitB (c : Nat) : Bool := 48 ≤ c && c < 58

/-- C++ std::isspace characters (space and 0x09-0x0d). -/
def isCppWs (c : Nat) : Bool := c = 32 || (9 ≤ c && c ≤ 13)

/-- Decimal digits of a natural number, most significant first, as ASCII
bytes.  Models the formatting of numbers done by std::ostringstream and
by gloox when an integer attribute is added to a tag. -/
def natDec (n : Nat) : Str :=
  if n = 0 then [48] else (Nat.digits 10 n).reverse.map (fun d => d + 48)

/-- Decimal rendering of an integer (minus sign plus digits). -/
def intDec (i : Int) : Str :=
  if i < 0 then 45 :: natDec (-i).toNat else natDec i.toNat

/-- Consumes leading decimal digits, accumulating their value onto `acc`
(the usual most-significant-first fold). -/
def readDigits : Str → Nat → Nat × Str
  | c :: rest, acc =>
      if isDigitB c then readDigits rest (acc * 10 + (c - 48)) else (acc, c :: rest)
  | [], acc => (acc, [])

/-- Parses a non-empty run of decimal digits from the front of the input;
fails when the input does not start with a digit. -/
def parseNatPrefix : Str → Option (Nat × Str)
  | c :: rest => if isDigitB c then some (readDigits rest (c - 48)) else none
  | [] => none

/-- Extraction of an unsigned integer from a string as done by
`std::istringstream >> (size_t)`: leading whitespace is skipped and, per
the C++11 rules that the Charon code relies on, a failed extraction
leaves the value 0.  Overflow clamping is not modelled (the values in
play are unbounded naturals here). -/
def readNatAttr (s : Str) : Nat :=
  match parseNatPrefix (s.dropWhile isCppWs) with
  | some (n, _) => n
  | none => 0

/-- Extraction of a signed integer from a string as done by
`std::istringstream >> (int)`: leading whitespace, an optional sign,
then digits; a failed extraction produces 0 (C++11). -/
def readIntAttr (s : Str) : Int :=
  match s.dropWhile isCppWs with
  | [] => 0
  | c :: rest =>
      if c = 45 then
        match parseNatPrefix rest with
        | some (n, _) => -(n : Int)
        | none => 0
      else if c = 43 then
        match parseNatPrefix rest with
        | some (n, _) => (n : Int)
        | none => 0
      else
        match parseNatPrefix (c :: rest) with
        | some (n, _) => (n : Int)
        | none => 0

theorem natDec_ne_nil (n : Nat) : natDec n ≠ [] := by
  unfold natDec
  split
  · simp
  · simp [Nat.digits_ne_nil_iff_ne_zero, *]

theorem natDec_digits (n : Nat) : ∀ c ∈ natDec n, isDigitB c = true := by
  intro c hc
  unfold natDec at hc
  split at hc
  · simp at hc
    simp [hc, isDigitB]
  · simp at hc
    obtain ⟨d, hd, rfl⟩ := hc
    have := Nat.digits_lt_base (by norm_num) hd
    simp [isDigitB]
    omega

theorem readDigits_append (ds : Str) (h : ∀ c ∈ ds, isDigitB c = true)
    (rest : Str) (acc : Nat) :
    readDigits (ds ++ rest) acc
      = readDigits rest (ds.foldl (fun a c => a * 10 + (c - 48)) acc) := by
  induction ds generalizing acc with
  | nil => simp
  | cons c t ih =>
      have hc := h c (by simp)
      simp only [List.cons_append, readDigits, hc, if_true, List.foldl_cons]
      exact ih (fun x hx => h x (by simp [hx])) _

theorem readDigits_stop (rest : Str) (acc : Nat)
    (h : rest = [] ∨ ∃ c t, rest = c :: t ∧ isDigitB c = false) :
    readDigits rest acc = (acc, rest) := by
  rcases h with rfl | ⟨c, t, rfl, hc⟩
  · rfl
  · simp [readDigits, hc]

theorem foldr_digits_ofDigits (l : List Nat) :
    l.foldr (fun d a => a * 10 + d) 0 = Nat.ofDigits 10 l := by
  induction l with
  | nil => simp [Nat.ofDigits]
  | cons d t ih => simp [Nat.ofDigits, ih]; ring

theorem foldl_natDec (n : Nat) :
    (natDec n).foldl (fun a c => a * 10 + (c - 48)) 0 = n := by
  unfold natDec
  by_cases hn : n = 0
  · simp [hn]
  · simp only [hn, if_false]
    rw [List.foldl_map]
    simp only [Nat.add_sub_cancel]
    rw [List.foldl_reverse]
    have h2 : (Nat.digits 10 n).foldr (fun d a => a * 10 + d) 0
        = Nat.ofDigits 10 (Nat.digits 10 n) := foldr_digits_ofDigits _
    rw [h2]
    exact_mod_cast Nat.ofDigits_digits 10 n

/-- Delimiter condition for number parsing: the trailing input must not
begin with a digit, so that the digit run ends where the printed number
ends. -/
def nonDigitHead : Str → Prop
  | [] => True
  | c :: _ => isDigitB c = false

theorem parseNatPrefix_natDec (n : Nat) (rest : Str) (h : nonDigitHead rest) :
    parseNatPrefix (natDec n ++ rest) = some (n, rest) := by
  obtain ⟨c, ds, hds⟩ : ∃ c ds, natDec n = c :: ds := by
    cases hnd : natDec n with
    | nil => exact absurd hnd (natDec_ne_nil n)
    | cons c ds => exact ⟨c, ds, rfl⟩
  have hall := natDec_digits n
  rw [hds] at hall
  have hc : isDigitB c = true := hall c (by simp)
  have hstop : readDigits rest (ds.foldl (fun a c => a * 10 + (c - 48)) (c - 48))
      = (ds.foldl (fun a c => a * 10 + (c - 48)) (c - 48), rest) := by
    apply readDigits_stop
    cases rest with
    | nil => left; rfl
    | cons x t => right; exact ⟨x, t, rfl, by simpa [nonDigitHead] using h⟩
  have hfold : ds.foldl (fun a c => a * 10 + (c - 48)) (c - 48) = n := by
    have := foldl_natDec n
    rw [hds] at this
    simpa using this
  simp only [hds, List.cons_append, parseNatPrefix, hc, if_true]
  rw [readDigits_append ds (fun x hx => hall x (by simp [hx])) rest (c - 48)]
  rw [hstop, hfold]

theorem natDec_head_not_ws (n : Nat) :
    ∀ c ∈ natDec n, isCppWs c = false := by
  intro c hc
  have := natDec_digits n c hc
  simp [isDigitB] at this
  simp [isCppWs]
  omega

theorem dropWhile_natDec (n : Nat) : (natDec n).dropWhile isCppWs = natDec n := by
  cases hnd : natDec n with
  | nil => rfl
  | cons c ds =>
      have hc : isCppWs c = false := natDec_head_not_ws n c (by simp [hnd])
      simp [List.dropWhile, hc]

theorem readNatAttr_natDec (n : Nat) : readNatAttr (natDec n) = n := by
  unfold readNatAttr
  rw [dropWhile_natDec]
  have h := parseNatPrefix_natDec n [] (by trivial)
  simp only [List.append_nil] at h
  rw [h]

theorem readIntAttr_intDec (i : Int) : readIntAttr (intDec i) = i := by
  unfold readIntAttr intDec
  by_cases hi : i < 0
  · simp only [hi, if_true]
    have hdw : ((45 : Nat) :: natDec (-i).toNat).dropWhile isCppWs
        = 45 :: natDec (-i).toNat := by
      simp [List.dropWhile, isCppWs]
    rw [hdw]
    have hp := parseNatPrefix_natDec (-i).toNat [] (by trivial)
    simp only [List.append_nil] at hp
    simp only [if_true, hp]
    omega
  · simp only [hi, if_false]
    obtain ⟨c, ds, hds⟩ : ∃ c ds, natDec i.toNat = c :: ds := by
      cases hnd : natDec i.toNat with
      | nil => exact absurd hnd (natDec_ne_nil i.toNat)
      | cons c ds => exact ⟨c, ds, rfl⟩
    have hcd : isDigitB c = true := natDec_digits i.toNat c (by simp [hds])
    have hc45 : c ≠ 45 := by simp [isDigitB] at hcd; omega
    have hc43 : c ≠ 43 := by simp [isDigitB] at hcd; omega
    have hp := parseNatPrefix_natDec i.toNat [] (by trivial)
    simp only [List.append_nil, hds] at hp
    rw [dropWhile_natDec, hds]
    simp only [hc45, hc43, if_false, hp]
    omega

/-! ### JSON values

Model of jsoncpp's `Json::Value` as used by Charon.  Objects are
association lists of key/value pairs; the well-formedness predicate
`jwf` below requires the keys of an object to be pairwise distinct (a
`std::map` invariant).  Floating-point values are outside the model
(Charon's own payloads are objects, arrays, strings and integers). -/

inductive Json where
  | null
  | bool (b : Bool)
  | int (n : Int)
  | str (s : Str)
  | arr (elts : List Json)
  | obj (fields : List (Str × Json))
deriving Repr

namespace Json

mutual

def beqVal : Json → Json → Bool
  | .null, .null => true
  | .bool a, .bool b => a == b
  | .int a, .int b => a == b
  | .str a, .str b => a == b
  | .arr a, .arr b => beqList a b
  | .obj a, .obj b => beqObj a b
  | _, _ => false

def beqList : List Json → List Json → Bool
  | [], [] => true
  | a :: as, b :: bs => beqVal a b && beqList as bs
  | _, _ => false

def beqObj : List (Str × Json) → List (Str × Json) → Bool
  | [], [] => true
  | (k, v) :: as, (k2, v2) :: bs => k == k2 && beqVal v v2 && beqObj as bs
  | _, _ => false

end

mutual

theorem beqVal_iff : ∀ a b : Json, beqVal a b = true ↔ a = b
  | .null, b => by cases b <;> simp [beqVal]
  | .bool x, b => by cases b <;> simp [beqVal]
  | .int x, b => by cases b <;> simp [beqVal]
  | .str x, b => by cases b <;> simp [beqVal]
  | .arr l, b => by
      cases b <;> simp [beqVal]
      exact beqList_iff l _
  | .obj o, b => by
      cases b <;> simp [beqVal]
      exact beqObj_iff o _

theorem beqList_iff : ∀ a b : List Json, beqList a b = true ↔ a = b
  | [], b => by cases b <;> simp [beqList]
  | x :: xs, b => by
      cases b with
      | nil => simp [beqList]
      | cons y ys => simp [beqList, beqVal_iff x y, beqList_iff xs ys]

theorem beqObj_iff : ∀ a b : List (Str × Json), beqObj a b = true ↔ a = b
  | [], b => by cases b <;> simp [beqObj]
  | (k, v) :: xs, b => by
      cases b with
      | nil => simp [beqObj]
      | cons y ys =>
          obtain ⟨k2, v2⟩ := y
          simp [beqObj, beqVal_iff v v2, beqObj_iff xs ys]

end

instance : DecidableEq Json := fun a b =>
  decidable_of_iff (beqVal a b = true) (beqVal_iff a b)

/-- Tests whether the value is an object, array or null (the shapes the
RpcRequest constructor accepts as params). -/
def isObjArrNull : Json → Bool
  | .null => true
  | .arr _ => true
  | .obj _ => true
  | _ => false

/-- Null test, as `Json::Value::isNull`. -/
def isNull : Json → Bool
  | .null => true
  | _ => false

/-- Field lookup on an object, as `Json::Value::operator[]` on a const
map value: the value stored under the key, or null if absent (or if the
value is not an object). -/
def getField (v : Json) (key : Str) : Json :=
  match v with
  | .obj fields =>
      match fields.lookup key with
      | some x => x
      | none => .null
  | _ => .null

end Json

/-! ### Canonical JSON writer

Modelled from the spec: the canonical writer settings Charon passes to
the external jsoncpp library (`Json::StreamWriterBuilder` with no
comments, empty indentation, no YAML compatibility, null placeholders
kept, no special floats).  With these settings jsoncpp emits compact
JSON: no whitespace, `:` between key and value, `,` between items,
integers in decimal, and strings quoted with `"`/`\`/control-character
escaping. -/

/-- Uppercase hexadecimal digit, as in jsoncpp's control-character
escapes. -/
def hexDigitU (d : Nat) : Nat := if d < 10 then d + 48 else d + 55

/-- Escape of a single byte inside a JSON string literal (jsoncpp's
`valueToQuotedString`): quote and backslash get two-byte escapes, the
usual control characters get their short escapes, all other control
bytes get a `\u00XX` escape, and every other byte is passed through. -/
def escByte (b : Nat) : Str :=
  if b = 34 then [92, 34]
  else if b = 92 then [92, 92]
  else if b = 8 then [92, 98]
  else if b = 9 then [92, 116]
  else if b = 10 then [92, 110]
  else if b = 12 then [92, 102]
  else if b = 13 then [92, 114]
  else if b < 32 then [92, 117, 48, 48, hexDigitU (b / 16), hexDigitU (b % 16)]
  else [b]

/-- Escaped body of a JSON string literal. -/
def escapeStr (s : Str) : Str := (s.map escByte).flatten

mutual

def writeVal : Json → Str
  | .null => [110, 117, 108, 108]
  | .bool true => [116, 114, 117, 101]
  | .bool false => [102, 97, 108, 115, 101]
  | .int n => intDec n
  | .str s => 34 :: escapeStr s ++ [34]
  | .arr l => 91 :: writeElems l
  | .obj o => 123 :: writeFields o

def writeElems : List Json → Str
  | [] => [93]
  | [v] => writeVal v ++ [93]
  | v :: tl => writeVal v ++ 44 :: writeElems tl

def writeFields : List (Str × Json) → Str
  | [] => [125]
  | [(k, v)] => 34 :: escapeStr k ++ 34 :: 58 :: writeVal v ++ [125]
  | (k, v) :: tl => 34 :: escapeStr k ++ 34 :: 58 :: writeVal v ++ 44 :: writeFields tl

end

/-! ### Strict JSON reader

Modelled from the spec: the strict reader settings Charon passes to
jsoncpp (`Json::CharReaderBuilder` with comments disallowed, duplicate
keys rejected, trailing content rejected, any root accepted).  The
model accepts exactly null / true / false / decimal integers / strings
/ arrays / objects with inter-token whitespace; real (floating-point)
literals and `\uXXXX` escapes at or above 0x80 are outside the model
(the canonical writer above never produces either). -/

/-- JSON inter-token whitespace accepted by the reader. -/
def isJsonWs (c : Nat) : Bool := c = 32 || c = 9 || c = 10 || c = 13

/-- Skips inter-token whitespace. -/
def skipWsJ : Str → Str
  | c :: rest => if isJsonWs c then skipWsJ rest else c :: rest
  | [] => []

/-- Value of a hexadecimal digit byte. -/
def hexVal (c : Nat) : Option Nat :=
  if 48 ≤ c ∧ c ≤ 57 then some (c - 48)
  else if 65 ≤ c ∧ c ≤ 70 then some (c - 55)
  else if 97 ≤ c ∧ c ≤ 102 then some (c - 87)
  else none

/-- Short escapes accepted after a backslash in a string literal. -/
def unescByte (e : Nat) : Option Nat :=
  if e = 34 then some 34
  else if e = 92 then some 92
  else if e = 47 then some 47
  else if e = 98 then some 8
  else if e = 102 then some 12
  else if e = 110 then some 10
  else if e = 114 then some 13
  else if e = 116 then some 9
  else none

mutual

/-- Parses the body of a string literal after the opening quote,
returning the unescaped bytes and the input after the closing quote. -/
def parseStrBody : Str → Option (Str × Str)
  | [] => none
  | c :: rest =>
      if c = 34 then some ([], rest)
      else if c = 92 then parseEscapeSeq rest
      else if c < 32 then none
      else
        match parseStrBody rest with
        | some (s, r) => some (c :: s, r)
        | none => none
termination_by s => s.length

/-- Parses the remainder of a string literal after a backslash. -/
def parseEscapeSeq : Str → Option (Str × Str)
  | [] => none
  | e :: rest =>
      if e = 117 then parseUniEscape rest
      else
        match unescByte e with
        | some b =>
            match parseStrBody rest with
            | some (s, r) => some (b :: s, r)
            | none => none
        | none => none
termination_by s => s.length

/-- Parses the four hex digits of a `\uXXXX` escape and the rest of the
string literal.  Code points at or above 0x80 (multi-byte UTF-8 output
in jsoncpp) are outside the model. -/
def parseUniEscape : Str → Option (Str × Str)
  | h1 :: h2 :: h3 :: h4 :: rest =>
      match hexVal h1, hexVal h2, hexVal h3, hexVal h4 with
      | some a, some b, some c2, some d =>
          let code := ((a * 16 + b) * 16 + c2) * 16 + d
          if code < 128 then
            match parseStrBody rest with
            | some (s, r) => some (code :: s, r)
            | none => none
          else none
      | _, _, _, _ => none
  | _ => none
termination_by s => s.length

end

/-- Matches the expected bytes `pat` at the front of the input and
returns the remainder, or fails. -/
def expectBytes : Str → Str → Option Str
  | [], s => some s
  | p :: pt, c :: ct => if c = p then expectBytes pt ct else none
  | _ :: _, [] => none

theorem expectBytes_prefix (pat r : Str) : expectBytes pat (pat ++ r) = some r := by
  induction pat with
  | nil => rfl
  | cons p pt ih => simp [expectBytes, ih]

mutual

def parseVal : Nat → Str → Option (Json × Str)
  | 0, _ => none
  | f + 1, input =>
      match skipWsJ input with
      | [] => none
      | c :: rest =>
          if c = 110 then
            match expectBytes [117, 108, 108] rest with
            | some r => some (.null, r)
            | none => none
          else if c = 116 then
            match expectBytes [114, 117, 101] rest with
            | some r => some (.bool true, r)
            | none => none
          else if c = 102 then
            match expectBytes [97, 108, 115, 101] rest with
            | some r => some (.bool false, r)
            | none => none
          else if c = 34 then
            match parseStrBody rest with
            | some (s, r) => some (.str s, r)
            | none => none
          else if c = 45 then
            match parseNatPrefix rest with
            | some (n, r) => some (.int (-(n : Int)), r)
            | none => none
          else if isDigitB c then
            let pr := readDigits rest (c - 48)
            some (.int (pr.1 : Int), pr.2)
          else if c = 91 then
            match skipWsJ rest with
            | [] => none
            | c2 :: r2 =>
                if c2 = 93 then some (.arr [], r2)
                else
                  match parseElems f (c2 :: r2) with
                  | some (l, r) => some (.arr l, r)
                  | none => none
          else if c = 123 then
            match skipWsJ rest with
            | [] => none
            | c2 :: r2 =>
                if c2 = 125 then some (.obj [], r2)
                else
                  match parseFields f [] (c2 :: r2) with
                  | some (o, r) => some (.obj o, r)
                  | none => none
          else none

def parseElems : Nat → Str → Option (List Json × Str)
  | 0, _ => none
  | f + 1, input =>
      match parseVal f input with
      | none => none
      | some (v, rest) =>
          match skipWsJ rest with
          | [] => none
          | c :: r =>
              if c = 44 then
                match parseElems f r with
                | some (tl, r2) => some (v :: tl, r2)
                | none => none
              else if c = 93 then some ([v], r)
              else none

def parseFields : Nat → List Str → Str → Option (List (Str × Json) × Str)
  | 0, _, _ => none
  | f + 1, seen, input =>
      match skipWsJ input with
      | [] => none
      | c :: rest =>
          if c = 34 then
            match parseStrBody rest with
            | none => none
            | some (k, rest1) =>
                if k ∈ seen then none
                else
                  match skipWsJ rest1 with
                  | [] => none
                  | c2 :: rest2 =>
                      if c2 = 58 then
                        match parseVal f rest2 with
                        | none => none
                        | some (v, rest3) =>
                            match skipWsJ rest3 with
                            | [] => none
                            | c3 :: r =>
                                if c3 = 44 then
                                  match parseFields f (k :: seen) r with
                                  | some (tl, r2) => some ((k, v) :: tl, r2)
                                  | none => none
                                else if c3 = 125 then some ([(k, v)], r)
                                else none
                      else none
          else none

end

/-- Parses a whole byte string as a single JSON document: one value,
optionally surrounded by whitespace, with no trailing content
(`failIfExtra`). -/
def parseJson (s : Str) : Option Json :=
  match parseVal (s.length + 1) s with
  | some (v, rest) => if skipWsJ rest = [] then some v else none
  | none => none

/-! ### Well-formedness of JSON values

Bytes of strings are genuine bytes, and object keys are pairwise
distinct (the `std::map` representation invariant of jsoncpp
objects). -/

/-- All entries of a byte string are below 256. -/
def strOk (s : Str) : Bool := s.all (fun b => b < 256)

mutual

def jwf : Json → Bool
  | .null => true
  | .bool _ => true
  | .int _ => true
  | .str s => strOk s
  | .arr l => jwfList l
  | .obj o => jwfObj o

def jwfList : List Json → Bool
  | [] => true
  | v :: tl => jwf v && jwfList tl

def jwfObj : List (Str × Json) → Bool
  | [] => true
  | (k, v) :: tl =>
      strOk k && decide (∀ kv ∈ tl, kv.1 ≠ k) && jwf v && jwfObj tl

end

/-! ### Round trip of the JSON codec

The functions `jfuel` / `lfuel` / `ofuel` give the fuel `parseVal`
needs for a given value: one unit per nesting step of the grammar. -/

mutual

def jfuel : Json → Nat
  | .arr l => lfuel l + 1
  | .obj o => ofuel o + 1
  | _ => 1

def lfuel : List Json → Nat
  | [] => 1
  | v :: tl => max (jfuel v) (lfuel tl) + 1

def ofuel : List (Str × Json) → Nat
  | [] => 1
  | (_, v) :: tl => max (jfuel v) (ofuel tl) + 1

end

/-- Delimiter condition: the input following a printed value is empty or
starts with a separator / closer, so that number parsing stops exactly
at the end of the printed number. -/
def delimHead : Str → Prop
  | [] => True
  | c :: _ => c = 44 ∨ c = 93 ∨ c = 125

theorem skipWsJ_not_ws {c : Nat} (t : Str) (h : isJsonWs c = false) :
    skipWsJ (c :: t) = c :: t := by
  simp [skipWsJ, h]

theorem hexVal_hexDigitU (d : Nat) (hd : d < 16) : hexVal (hexDigitU d) = some d := by
  interval_cases d <;> decide

/-- Short-escape letter of a byte with a two-character escape. -/
def escShort (b : Nat) : Nat :=
  if b = 34 then 34
  else if b = 92 then 92
  else if b = 8 then 98
  else if b = 9 then 116
  else if b = 10 then 110
  else if b = 12 then 102
  else 114

theorem parseStrBody_escape (s : Str) (r : Str) :
    parseStrBody (escapeStr s ++ 34 :: r) = some (s, r) := by
  induction s with
  | nil =>
      have h0 : escapeStr [] = [] := by simp [escapeStr]
      rw [h0, List.nil_append]
      simp only [parseStrBody]
      norm_num
  | cons b t ih =>
      have hesc : escapeStr (b :: t) = escByte b ++ escapeStr t := by
        simp [escapeStr]
      rw [hesc, List.append_assoc]
      by_cases hshort : b = 34 ∨ b = 92 ∨ b = 8 ∨ b = 9 ∨ b = 10 ∨ b = 12 ∨ b = 13
      · have hu : unescByte (escShort b) = some b := by
          rcases hshort with h | h | h | h | h | h | h <;> subst h <;> decide
        have hform : escByte b = [92, escShort b] := by
          rcases hshort with h | h | h | h | h | h | h <;> subst h <;> rfl
        have hne : escShort b ≠ 117 := by
          rcases hshort with h | h | h | h | h | h | h <;> subst h <;> decide
        rw [hform]
        simp only [List.cons_append, List.nil_append]
        simp only [parseStrBody, parseEscapeSeq]
        norm_num [hne, hu, ih]
      · push_neg at hshort
        obtain ⟨h34, h92, h8, h9, h10, h12, h13⟩ := hshort
        by_cases hctl : b < 32
        · have hdiv : b / 16 < 16 := by omega
          have hmod : b % 16 < 16 := by omega
          have hform : escByte b
              = [92, 117, 48, 48, hexDigitU (b / 16), hexDigitU (b % 16)] := by
            unfold escByte
            rw [if_neg h34, if_neg h92, if_neg h8, if_neg h9,
              if_neg h10, if_neg h12, if_neg h13, if_pos hctl]
          rw [hform]
          simp only [List.cons_append, List.nil_append]
          simp only [parseStrBody, parseEscapeSeq, parseUniEscape]
          have h48 : hexVal 48 = some 0 := by decide
          have hcode : ((0 * 16 + 0) * 16 + b / 16) * 16 + b % 16 = b := by omega
          norm_num [h48, hexVal_hexDigitU _ hdiv, hexVal_hexDigitU _ hmod, hcode, ih]
          omega
        · have hform : escByte b = [b] := by
            unfold escByte
            rw [if_neg h34, if_neg h92, if_neg h8, if_neg h9,
              if_neg h10, if_neg h12, if_neg h13, if_neg hctl]
          rw [hform]
          simp only [List.cons_append, List.nil_append]
          simp only [parseStrBody]
          rw [if_neg h34, if_neg h92, if_neg (by omega)]
          simp [ih]

theorem intDec_head (n : Int) :
    ∃ c t, intDec n = c :: t ∧ (c = 45 ∨ isDigitB c = true) := by
  unfold intDec
  by_cases hn : n < 0
  · exact ⟨45, _, by rw [if_pos hn], Or.inl rfl⟩
  · obtain ⟨c, ds, hds⟩ : ∃ c ds, natDec n.toNat = c :: ds := by
      cases hnd : natDec n.toNat with
      | nil => exact absurd hnd (natDec_ne_nil _)
      | cons c ds => exact ⟨c, ds, rfl⟩
    have hd : isDigitB c = true := natDec_digits n.toNat c (by rw [hds]; exact List.mem_cons_self c ds)
    exact ⟨c, ds, by rw [if_neg hn, hds], Or.inr hd⟩

theorem writeVal_head (v : Json) :
    ∃ c t, writeVal v = c :: t ∧ isJsonWs c = false ∧ c ≠ 93 := by
  cases v with
  | null => exact ⟨110, _, rfl, by decide, by decide⟩
  | bool b =>
      cases b with
      | true => exact ⟨116, _, rfl, by decide, by decide⟩
      | false => exact ⟨102, _, rfl, by decide, by decide⟩
  | int n =>
      obtain ⟨c, t, hct, hc⟩ := intDec_head n
      refine ⟨c, t, hct, ?_, ?_⟩
      · rcases hc with rfl | hd
        · decide
        · simp [isDigitB] at hd
          simp [isJsonWs]
          omega
      · rcases hc with rfl | hd
        · decide
        · simp [isDigitB] at hd
          omega
  | str s => exact ⟨34, _, rfl, by decide, by decide⟩
  | arr l => exact ⟨91, _, rfl, by decide, by decide⟩
  | obj o => exact ⟨123, _, rfl, by decide, by decide⟩

theorem writeVal_ne_nil (v : Json) : writeVal v ≠ [] := by
  obtain ⟨c, t, h, -, -⟩ := writeVal_head v
  simp [h]

theorem writeElems_ne_nil (l : List Json) : writeElems l ≠ [] := by
  cases l with
  | nil => simp [writeElems]
  | cons v tl =>
      cases tl with
      | nil => simp [writeElems, writeVal_ne_nil]
      | cons w tw => simp [writeElems, writeVal_ne_nil]

theorem writeFields_ne_nil (o : List (Str × Json)) : writeFields o ≠ [] := by
  cases o with
  | nil => simp [writeFields]
  | cons kv tl =>
      obtain ⟨k, v⟩ := kv
      cases tl with
      | nil => simp [writeFields]
      | cons kw tw => simp [writeFields]

theorem jfuel_pos (v : Json) : 1 ≤ jfuel v := by
  cases v <;> simp [jfuel]

theorem lfuel_pos (l : List Json) : 1 ≤ lfuel l := by
  cases l <;> simp [lfuel]

theorem ofuel_pos (o : List (Str × Json)) : 1 ≤ ofuel o := by
  cases o with
  | nil => simp [ofuel]
  | cons kv tl => obtain ⟨k, v⟩ := kv; simp [ofuel]

theorem delim_nonDigit (rest : Str) (h : delimHead rest) : nonDigitHead rest := by
  cases rest with
  | nil => trivial
  | cons c t =>
      rcases h with h | h | h <;> subst h <;> simp [nonDigitHead, isDigitB]

theorem writeElems_cons (x : Json) (tl : List Json) :
    ∃ s, writeElems (x :: tl) = writeVal x ++ s ∧
      ((tl = [] ∧ s = [93]) ∨ (tl ≠ [] ∧ s = 44 :: writeElems tl)) := by
  cases tl with
  | nil => exact ⟨[93], rfl, Or.inl ⟨rfl, rfl⟩⟩
  | cons y ty => exact ⟨44 :: writeElems (y :: ty), rfl, Or.inr ⟨by simp, rfl⟩⟩

theorem writeFields_cons (k : Str) (v : Json) (tl : List (Str × Json)) :
    ∃ s, writeFields ((k, v) :: tl) = 34 :: (escapeStr k ++ 34 :: 58 :: (writeVal v ++ s)) ∧
      ((tl = [] ∧ s = [125]) ∨ (tl ≠ [] ∧ s = 44 :: writeFields tl)) := by
  cases tl with
  | nil => exact ⟨[125], by simp [writeFields], Or.inl ⟨rfl, rfl⟩⟩
  | cons kw tw =>
      exact ⟨44 :: writeFields (kw :: tw), by simp [writeFields], Or.inr ⟨by simp, rfl⟩⟩

mutual

theorem parse_writeVal (v : Json) (hwf : jwf v = true) (f : Nat)
    (hf : jfuel v ≤ f) (rest : Str) (hrest : delimHead rest) :
    parseVal f (writeVal v ++ rest) = some (v, rest) := by
  obtain ⟨f0, rfl⟩ : ∃ f0, f = f0 + 1 := by
    have := jfuel_pos v
    exact ⟨f - 1, by omega⟩
  cases v with
  | null =>
      simp only [writeVal, List.cons_append, List.nil_append, parseVal]
      rw [skipWsJ_not_ws _ (by decide)]
      norm_num [expectBytes]
  | bool b =>
      cases b with
      | true =>
          simp only [writeVal, List.cons_append, List.nil_append, parseVal]
          rw [skipWsJ_not_ws _ (by decide)]
          norm_num [expectBytes]
      | false =>
          simp only [writeVal, List.cons_append, List.nil_append, parseVal]
          rw [skipWsJ_not_ws _ (by decide)]
          norm_num [expectBytes]
  | int n =>
      by_cases hn : n < 0
      · have hid : writeVal (.int n) = 45 :: natDec (-n).toNat := by
          show intDec n = _
          unfold intDec
          rw [if_pos hn]
        rw [hid]
        simp only [List.cons_append, parseVal]
        rw [skipWsJ_not_ws _ (by decide)]
        norm_num
        rw [parseNatPrefix_natDec _ rest (delim_nonDigit rest hrest)]
        have hnn : -(((-n).toNat : Int)) = n := by omega
        show some (Json.int (-(((-n).toNat : Int))), rest) = some (Json.int n, rest)
        rw [hnn]
      · have hid : writeVal (.int n) = natDec n.toNat := by
          show intDec n = _
          unfold intDec
          rw [if_neg hn]
        obtain ⟨c, t, hct, hcd⟩ : ∃ c t, natDec n.toNat = c :: t ∧ isDigitB c = true := by
          cases hnd : natDec n.toNat with
          | nil => exact absurd hnd (natDec_ne_nil _)
          | cons c t =>
              exact ⟨c, t, rfl, natDec_digits _ c (by rw [hnd]; exact List.mem_cons_self c t)⟩
        have hcb : 48 ≤ c ∧ c < 58 := by simpa [isDigitB] using hcd
        have hread : readDigits (t ++ rest) (c - 48) = (n.toNat, rest) := by
          have hp := parseNatPrefix_natDec n.toNat rest (delim_nonDigit rest hrest)
          rw [hct] at hp
          simpa [parseNatPrefix, hcd] using hp
        have h110 : c ≠ 110 := by omega
        have h116 : c ≠ 116 := by omega
        have h102 : c ≠ 102 := by omega
        have h34 : c ≠ 34 := by omega
        have h45 : c ≠ 45 := by omega
        have hnn : ((n.toNat : Int)) = n := by omega
        rw [hid, hct]
        simp only [List.cons_append, parseVal]
        rw [skipWsJ_not_ws _ (by simp [isJsonWs]; omega)]
        simp [h110, h116, h102, h34, h45, hcd, hread, hnn]
  | str s =>
      have hw : writeVal (.str s) ++ rest = 34 :: (escapeStr s ++ 34 :: rest) := by
        simp [writeVal]
      rw [hw]
      simp only [parseVal]
      rw [skipWsJ_not_ws _ (by decide)]
      norm_num
      rw [parseStrBody_escape]
  | arr l =>
      have hwfl : jwfList l = true := by simpa [jwf] using hwf
      have hfl : lfuel l ≤ f0 := by
        simp only [jfuel] at hf
        omega
      cases l with
      | nil =>
          have hw : writeVal (.arr []) ++ rest = 91 :: 93 :: rest := by
            simp [writeVal, writeElems]
          rw [hw]
          simp only [parseVal]
          rw [skipWsJ_not_ws _ (by decide)]
          norm_num [isDigitB]
          rw [skipWsJ_not_ws _ (by decide)]
          norm_num
      | cons x tl =>
          obtain ⟨cx, tx, hcx, hwsx, h93x⟩ := writeVal_head x
          obtain ⟨s, hs, hsalt⟩ := writeElems_cons x tl
          have hrw : writeElems (x :: tl) ++ rest = cx :: (tx ++ (s ++ rest)) := by
            rw [hs, hcx]
            simp
          have hpe := parse_writeElems (x :: tl) (by simp) hwfl f0 hfl rest
          rw [hrw] at hpe
          have hw : writeVal (.arr (x :: tl)) ++ rest
              = 91 :: (cx :: (tx ++ (s ++ rest))) := by
            show 91 :: writeElems (x :: tl) ++ rest = _
            rw [List.cons_append, hrw]
          rw [hw]
          simp only [parseVal]
          rw [skipWsJ_not_ws _ (by decide)]
          norm_num [isDigitB]
          rw [skipWsJ_not_ws _ hwsx]
          norm_num [h93x, hpe]
  | obj o =>
      have hwfo : jwfObj o = true := by simpa [jwf] using hwf
      have hfo : ofuel o ≤ f0 := by
        simp only [jfuel] at hf
        omega
      cases o with
      | nil =>
          have hw : writeVal (.obj []) ++ rest = 123 :: 125 :: rest := by
            simp [writeVal, writeFields]
          rw [hw]
          simp only [parseVal]
          rw [skipWsJ_not_ws _ (by decide)]
          norm_num [isDigitB]
          rw [skipWsJ_not_ws _ (by decide)]
          norm_num
      | cons kv tl =>
          obtain ⟨k, v⟩ := kv
          have hpf := parse_writeFields ((k, v) :: tl) (by simp) hwfo []
            (by simp) f0 hfo rest
          obtain ⟨s, hsf, hsalt⟩ := writeFields_cons k v tl
          rw [hsf] at hpf
          simp only [List.cons_append, List.append_assoc] at hpf
          have hw : writeVal (.obj ((k, v) :: tl)) ++ rest
              = 123 :: (writeFields ((k, v) :: tl) ++ rest) := by
            show 123 :: writeFields ((k, v) :: tl) ++ rest = _
            rw [List.cons_append]
          rw [hw]
          simp only [parseVal]
          rw [skipWsJ_not_ws _ (by decide)]
          norm_num [isDigitB]
          rw [hsf]
          simp only [List.cons_append, List.append_assoc]
          rw [skipWsJ_not_ws _ (by decide)]
          norm_num [hpf]

theorem parse_writeElems (l : List Json) (hl : l ≠ []) (hwf : jwfList l = true)
    (f : Nat) (hf : lfuel l ≤ f) (rest : Str) :
    parseElems f (writeElems l ++ rest) = some (l, rest) := by
  cases l with
  | nil => exact absurd rfl hl
  | cons x tl =>
      obtain ⟨f0, rfl⟩ : ∃ f0, f = f0 + 1 := by
        have := lfuel_pos (x :: tl)
        exact ⟨f - 1, by omega⟩
      have hwfx : jwf x = true := by
        simp [jwfList] at hwf
        exact hwf.1
      have hwftl : jwfList tl = true := by
        simp [jwfList] at hwf
        exact hwf.2
      have hfx : jfuel x ≤ f0 := by
        simp only [lfuel] at hf
        omega
      have hftl : lfuel tl ≤ f0 := by
        simp only [lfuel] at hf
        omega
      obtain ⟨s, hs, hsalt⟩ := writeElems_cons x tl
      have hdelim : delimHead (s ++ rest) := by
        rcases hsalt with ⟨-, rfl⟩ | ⟨-, rfl⟩
        · exact Or.inr (Or.inl rfl)
        · exact Or.inl rfl
      have hpv := parse_writeVal x hwfx f0 hfx (s ++ rest) hdelim
      simp only [parseElems]
      rw [hs, List.append_assoc, hpv]
      rcases hsalt with ⟨rfl, rfl⟩ | ⟨htl, rfl⟩
      · norm_num [skipWsJ_not_ws, isJsonWs]
      · norm_num [skipWsJ_not_ws, isJsonWs,
          parse_writeElems tl htl hwftl f0 hftl rest]

theorem parse_writeFields (o : List (Str × Json)) (ho : o ≠ [])
    (hwf : jwfObj o = true) (seen : List Str) (hseen : ∀ kv ∈ o, kv.1 ∉ seen)
    (f : Nat) (hf : ofuel o ≤ f) (rest : Str) :
    parseFields f seen (writeFields o ++ rest) = some (o, rest) := by
  cases o with
  | nil => exact absurd rfl ho
  | cons kv tl =>
      obtain ⟨k, v⟩ := kv
      obtain ⟨f0, rfl⟩ : ∃ f0, f = f0 + 1 := by
        have := ofuel_pos ((k, v) :: tl)
        exact ⟨f - 1, by omega⟩
      have hwfv : jwf v = true := by
        simp [jwfObj] at hwf
        tauto
      have hwftl : jwfObj tl = true := by
        simp [jwfObj] at hwf
        tauto
      have hknot : ∀ kv2 ∈ tl, kv2.1 ≠ k := by
        simp [jwfObj] at hwf
        tauto
      have hfv : jfuel v ≤ f0 := by
        simp only [ofuel] at hf
        omega
      have hftl : ofuel tl ≤ f0 := by
        simp only [ofuel] at hf
        omega
      obtain ⟨s, hsf, hsalt⟩ := writeFields_cons k v tl
      have hdelim : delimHead (s ++ rest) := by
        rcases hsalt with ⟨-, rfl⟩ | ⟨-, rfl⟩
        · exact Or.inr (Or.inr rfl)
        · exact Or.inl rfl
      have hpv := parse_writeVal v hwfv f0 hfv (s ++ rest) hdelim
      have hknotseen : k ∉ seen := hseen (k, v) (by simp)
      have hseen2 : ∀ kv2 ∈ tl, kv2.1 ∉ k :: seen := by
        intro kv2 hkv2
        simp only [List.mem_cons]
        push_neg
        exact ⟨hknot kv2 hkv2, hseen kv2 (by simp [hkv2])⟩
      simp only [parseFields]
      rw [hsf]
      simp only [List.cons_append, List.append_assoc]
      rcases hsalt with ⟨rfl, rfl⟩ | ⟨htl, rfl⟩
      · have hpv2 : parseVal f0 (writeVal v ++ (125 :: rest)) = some (v, 125 :: rest) := by
          simpa using hpv
        norm_num [skipWsJ_not_ws, isJsonWs, parseStrBody_escape, hknotseen, hpv2]
      · have hpv2 : parseVal f0 (writeVal v ++ (44 :: (writeFields tl ++ rest)))
            = some (v, 44 :: (writeFields tl ++ rest)) := by
          simpa using hpv
        norm_num [skipWsJ_not_ws, isJsonWs, parseStrBody_escape, hknotseen, hpv2,
          parse_writeFields tl htl hwftl (k :: seen) hseen2 f0 hftl rest]

end

mutual

theorem jfuel_le_len (v : Json) : jfuel v ≤ (writeVal v).length + 1 := by
  cases v with
  | null => simp [jfuel, writeVal]
  | bool b => cases b <;> simp [jfuel, writeVal]
  | int n => simp [jfuel]
  | str s => simp [jfuel]
  | arr l =>
      have h := lfuel_le_len l
      have hlen : (writeVal (.arr l)).length = (writeElems l).length + 1 := by
        simp [writeVal]
      simp only [jfuel, hlen]
      omega
  | obj o =>
      have h := ofuel_le_len o
      have hlen : (writeVal (.obj o)).length = (writeFields o).length + 1 := by
        simp [writeVal]
      simp only [jfuel, hlen]
      omega

theorem lfuel_le_len (l : List Json) : lfuel l ≤ (writeElems l).length + 1 := by
  cases l with
  | nil => simp [lfuel, writeElems]
  | cons x tl =>
      have hx := jfuel_le_len x
      have hxpos : 1 ≤ (writeVal x).length :=
        List.length_pos.mpr (writeVal_ne_nil x)
      cases tl with
      | nil =>
          have hl : lfuel [x] = max (jfuel x) 1 + 1 := rfl
          have hlen : (writeElems [x]).length = (writeVal x).length + 1 := by
            simp [writeElems]
          rw [hl, hlen]
          omega
      | cons y ty =>
          have htl := lfuel_le_len (y :: ty)
          have htlpos : 1 ≤ (writeElems (y :: ty)).length :=
            List.length_pos.mpr (writeElems_ne_nil _)
          have hl : lfuel (x :: y :: ty) = max (jfuel x) (lfuel (y :: ty)) + 1 := rfl
          have hlen : (writeElems (x :: y :: ty)).length
              = (writeVal x).length + 1 + (writeElems (y :: ty)).length := by
            show ((writeVal x ++ 44 :: writeElems (y :: ty)).length) = _
            simp
            omega
          rw [hl, hlen]
          omega

theorem ofuel_le_len (o : List (Str × Json)) : ofuel o ≤ (writeFields o).length + 1 := by
  cases o with
  | nil => simp [ofuel, writeFields]
  | cons kv tl =>
      obtain ⟨k, v⟩ := kv
      have hv := jfuel_le_len v
      have hvpos : 1 ≤ (writeVal v).length :=
        List.length_pos.mpr (writeVal_ne_nil v)
      cases tl with
      | nil =>
          have ho : ofuel [(k, v)] = max (jfuel v) 1 + 1 := rfl
          have hlen : (writeFields [(k, v)]).length
              = (escapeStr k).length + 4 + (writeVal v).length := by
            show ((34 :: escapeStr k ++ 34 :: 58 :: writeVal v ++ [125]).length) = _
            simp
            omega
          rw [ho, hlen]
          omega
      | cons kw tw =>
          have htl := ofuel_le_len (kw :: tw)
          have htlpos : 1 ≤ (writeFields (kw :: tw)).length :=
            List.length_pos.mpr (writeFields_ne_nil _)
          have ho : ofuel ((k, v) :: kw :: tw)
              = max (jfuel v) (ofuel (kw :: tw)) + 1 := rfl
          have hlen : (writeFields ((k, v) :: kw :: tw)).length
              = (escapeStr k).length + 4 + (writeVal v).length
                + (writeFields (kw :: tw)).length := by
            show ((34 :: escapeStr k ++ 34 :: 58 :: writeVal v
                ++ 44 :: writeFields (kw :: tw)).length) = _
            simp
            omega
          rw [ho, hlen]
          omega

end

/-- Round trip of the modelled JSON codec: the strict reader recovers
exactly the value emitted by the canonical writer. -/
theorem parseJson_writeVal (v : Json) (hwf : jwf v = true) :
    parseJson (writeVal v) = some v := by
  unfold parseJson
  have h := parse_writeVal v hwf ((writeVal v).length + 1) (jfuel_le_len v) [] trivial
  rw [List.append_nil] at h
  rw [h]
  simp [skipWsJ]

/-! ### XML elements

Model of gloox's `Tag`: an XML element with a name, attributes,
character data and child elements.  XML text-level escaping is handled
inside gloox and is invisible at this level. -/

inductive Tag where
  | mk (name : Str) (attrs : List (Str × Str)) (cdata : Str) (children : List Tag)

namespace Tag

def name : Tag → Str
  | mk n _ _ _ => n

def attrs : Tag → List (Str × Str)
  | mk _ a _ _ => a

def cdata : Tag → Str
  | mk _ _ c _ => c

def children : Tag → List Tag
  | mk _ _ _ ch => ch

/-- Replaces the value of an existing attribute or appends a new one,
as `gloox::Tag::addAttribute`. -/
def setAttr : List (Str × Str) → Str → Str → List (Str × Str)
  | [], a, v => [(a, v)]
  | (a2, v2) :: tl, a, v =>
      if a2 = a then (a, v) :: tl else (a2, v2) :: setAttr tl a v

/-- Adds (or replaces) an attribute. -/
def addAttribute (t : Tag) (a v : Str) : Tag :=
  mk t.name (setAttr t.attrs a v) t.cdata t.children

/-- Appends a child element, as `gloox::Tag::addChild`. -/
def addChild (t : Tag) (c : Tag) : Tag :=
  mk t.name t.attrs t.cdata (t.children ++ [c])

/-- Attribute lookup; the empty string when absent
(`gloox::Tag::findAttribute`). -/
def findAttribute (t : Tag) (a : Str) : Str :=
  match t.attrs.lookup a with
  | some v => v
  | none => []

/-- Attribute presence test (`gloox::Tag::hasAttribute` as used with a
single name). -/
def hasAttribute (t : Tag) (a : Str) : Bool :=
  (t.attrs.lookup a).isSome

/-- First child with the given name (`gloox::Tag::findChild`). -/
def findChild (t : Tag) (n : Str) : Option Tag :=
  t.children.find? (fun c => c.name = n)

/-- All children with the given name (`gloox::Tag::findChildren`). -/
def findChildren (t : Tag) (n : Str) : List Tag :=
  t.children.filter (fun c => c.name = n)

/-- Presence of a child with the given name (`gloox::Tag::hasChild`). -/
def hasChild (t : Tag) (n : Str) : Bool :=
  (t.findChild n).isSome

end Tag

/-- The Charon XML namespace string (only its identity matters here). -/
def charonXmlns : Str := bytes "https:" ++ [47, 47] ++ bytes "xaya.io" ++ [47] ++ bytes "charon" ++ [47]

/-- Mimics `setXmlns`: stores the namespace as an attribute. -/
def Tag.setXmlns (t : Tag) : Tag := t.addAttribute (bytes "xmlns") charonXmlns

/-! ### Base64

`EncodeBase64` and `DecodeBase64` from `xmldata.cpp` delegate the raw
conversion to OpenSSL's `EVP_EncodeBlock` / `EVP_DecodeBlock`; those two
primitives are modelled here from the OpenSSL implementation
(`crypto/evp/encode.c`), including its `ascii2bin` classification table,
its trimming of leading whitespace and of a trailing run of
non-base64-class bytes, the multiple-of-four length check, and the
treatment of `=` as a zero digit. -/

/-- OpenSSL's `data_ascii2bin` classification: 6-bit values for alphabet
bytes and `=` (which maps to 0), 224 for space/tab (whitespace), 240/241
for LF/CR, 242 for `-` (EOF marker), 255 for everything else. -/
def ascii2bin (c : Nat) : Nat :=
  if c = 9 then 224
  else if c = 10 then 240
  else if c = 13 then 241
  else if c = 32 then 224
  else if c = 43 then 62
  else if c = 45 then 242
  else if c = 47 then 63
  else if 48 ≤ c ∧ c ≤ 57 then c + 4
  else if c = 61 then 0
  else if 65 ≤ c ∧ c ≤ 90 then c - 65
  else if 97 ≤ c ∧ c ≤ 122 then c - 71
  else 255

/-- OpenSSL's `B64_NOT_BASE64` test: whitespace, newline, carriage
return and EOF classes (but not the error class 255). -/
def b64NotBase64 (a : Nat) : Bool := a ||| 19 = 243

/-- The base64 alphabet byte for a 6-bit value
(`A-Z`, `a-z`, `0-9`, `+`, `/`). -/
def binToAscii (d : Nat) : Nat :=
  if d < 26 then d + 65
  else if d < 52 then d + 71
  else if d < 62 then d - 4
  else if d = 62 then 43
  else 47

/-- Standard base64 encoding with trailing padding, three input bytes
per four output characters: the output of `EVP_EncodeBlock` (which adds
no newlines), and hence of Charon's `EncodeBase64` (which additionally
strips newline characters, a no-op here). -/
def encB64 : Str → Str
  | [] => []
  | [a] => [binToAscii (a / 4), binToAscii (a % 4 * 16), 61, 61]
  | [a, b] =>
      [binToAscii (a / 4), binToAscii (a % 4 * 16 + b / 16),
       binToAscii (b % 16 * 4), 61]
  | a :: b :: c :: rest =>
      binToAscii (a / 4) :: binToAscii (a % 4 * 16 + b / 16)
        :: binToAscii (b % 16 * 4 + c / 64) :: binToAscii (c % 64)
        :: encB64 rest

/-- Drops trailing bytes whose class is non-base64 while more than three
bytes remain, operating on the reversed input (the second trimming loop
of `EVP_DecodeBlock`). -/
def stripEndRev : Str → Str
  | [] => []
  | c :: rest =>
      if 3 < rest.length + 1 ∧ b64NotBase64 (ascii2bin c) then stripEndRev rest
      else c :: rest

/-- The quad loop of `EVP_DecodeBlock`: four ascii2bin values at a time,
failing when any value has the high bit set, producing three bytes. -/
def evpDecodeQuads : Str → Option Str
  | [] => some []
  | c1 :: c2 :: c3 :: c4 :: rest =>
      let a := ascii2bin c1
      let b := ascii2bin c2
      let c := ascii2bin c3
      let d := ascii2bin c4
      if a < 128 ∧ b < 128 ∧ c < 128 ∧ d < 128 then
        let l := a * 262144 + b * 4096 + c * 64 + d
        match evpDecodeQuads rest with
        | some tl => some (l / 65536 % 256 :: l / 256 % 256 :: l % 256 :: tl)
        | none => none
      else none
  | _ => none

/-- Model of `EVP_DecodeBlock`: trim leading whitespace, strip a
trailing run of non-base64 bytes (while more than three bytes remain),
require a multiple of four, then decode quads.  Bytes decoded from
padding positions are included (the caller strips them). -/
def evpDecodeBlock (input : Str) : Option Str :=
  let f1 := input.dropWhile (fun c => ascii2bin c = 224)
  let f2 := (stripEndRev f1.reverse).reverse
  if f2.length % 4 ≠ 0 then none
  else evpDecodeQuads f2

/-- The whitespace bytes skipped by Charon's padding scan
(space, TAB, LF, VT, FF, CR). -/
def isScanWs (c : Nat) : Bool :=
  c = 32 || c = 9 || c = 10 || c = 11 || c = 12 || c = 13

/-- The padding scan of Charon's `DecodeBase64`: counts `=` characters,
skips whitespace, and fails when a padding character is followed by any
other character class. -/
def scanPaddings : Str → Nat → Option Nat
  | [], p => some p
  | c :: rest, p =>
      if c = 61 then scanPaddings rest (p + 1)
      else if isScanWs c then scanPaddings rest p
      else if 0 < p then none
      else scanPaddings rest 0

/-- Charon's `DecodeBase64` (`xmldata.cpp`): scan paddings (failing on
padding in the middle or more than three paddings), decode with
`EVP_DecodeBlock`, and drop the padding bytes from the tail. -/
def DecodeBase64 (encoded : Str) : Option Str :=
  match scanPaddings encoded 0 with
  | none => none
  | some p =>
      if 3 < p then none
      else
        match evpDecodeBlock encoded with
        | none => none
        | some d => some (d.take (d.length - p))

/-- Charon's `EncodeBase64`. -/
def EncodeBase64 (data : Str) : Str := encB64 data

/-! ### Round trip of the base64 codec -/

/-- Number of padding characters the encoder appends. -/
def padOf (s : Str) : Nat := (3 - s.length % 3) % 3

theorem ascii2bin_binToAscii (d : Nat) (hd : d < 64) :
    ascii2bin (binToAscii d) = d := by
  interval_cases d <;> decide

theorem binToAscii_ne61 (d : Nat) (hd : d < 64) : binToAscii d ≠ 61 := by
  interval_cases d <;> decide

theorem binToAscii_not_scanWs (d : Nat) (hd : d < 64) :
    isScanWs (binToAscii d) = false := by
  interval_cases d <;> decide

theorem notB64_of_lt64 (a : Nat) (ha : a < 64) : b64NotBase64 a = false := by
  interval_cases a <;> decide

theorem encB64_vals (s : Str) (h : strOk s = true) :
    ∀ x ∈ encB64 s, ascii2bin x < 64 := by
  induction s using encB64.induct with
  | case1 => simp [encB64]
  | case2 a =>
      have ha : a < 256 := by simpa [strOk] using h
      intro x hx
      simp only [encB64, List.mem_cons, List.mem_singleton] at hx
      rcases hx with rfl | rfl | rfl | rfl | h0
      · rw [ascii2bin_binToAscii _ (by omega)]; omega
      · rw [ascii2bin_binToAscii _ (by omega)]; omega
      · decide
      · decide
      · simp at h0
  | case3 a b =>
      have hab : a < 256 ∧ b < 256 := by simpa [strOk] using h
      intro x hx
      simp only [encB64, List.mem_cons, List.mem_singleton] at hx
      rcases hx with rfl | rfl | rfl | rfl | h0
      · rw [ascii2bin_binToAscii _ (by omega)]; omega
      · rw [ascii2bin_binToAscii _ (by omega)]; omega
      · rw [ascii2bin_binToAscii _ (by omega)]; omega
      · decide
      · simp at h0
  | case4 a b c rest ih =>
      have habc : a < 256 ∧ b < 256 ∧ c < 256 ∧ strOk rest = true := by
        simpa [strOk] using h
      intro x hx
      simp only [encB64, List.mem_cons] at hx
      rcases hx with rfl | rfl | rfl | rfl | hx
      · rw [ascii2bin_binToAscii _ (by omega)]; omega
      · rw [ascii2bin_binToAscii _ (by omega)]; omega
      · rw [ascii2bin_binToAscii _ (by omega)]; omega
      · rw [ascii2bin_binToAscii _ (by omega)]; omega
      · exact ih habc.2.2.2 x hx

theorem encB64_len (s : Str) : (encB64 s).length % 4 = 0 := by
  induction s using encB64.induct with
  | case1 => simp [encB64]
  | case2 a => simp [encB64]
  | case3 a b => simp [encB64]
  | case4 a b c rest ih =>
      simp only [encB64, List.length_cons]
      omega

theorem evpDecodeQuads_encB64 (s : Str) (h : strOk s = true) :
    evpDecodeQuads (encB64 s) = some (s ++ List.replicate (padOf s) 0) := by
  induction s using encB64.induct with
  | case1 => simp [encB64, evpDecodeQuads, padOf]
  | case2 a =>
      have ha : a < 256 := by simpa [strOk] using h
      simp only [encB64, evpDecodeQuads]
      rw [ascii2bin_binToAscii _ (by omega), ascii2bin_binToAscii _ (by omega)]
      have h61 : ascii2bin 61 = 0 := by decide
      rw [h61]
      rw [if_pos (by omega)]
      have hb1 : (a / 4 * 262144 + a % 4 * 16 * 4096 + 0 * 64 + 0) / 65536 % 256 = a := by
        omega
      have hb2 : (a / 4 * 262144 + a % 4 * 16 * 4096 + 0 * 64 + 0) / 256 % 256 = 0 := by
        omega
      have hb3 : (a / 4 * 262144 + a % 4 * 16 * 4096 + 0 * 64 + 0) % 256 = 0 := by
        omega
      rw [hb1, hb2, hb3]
      have hp : padOf [a] = 2 := rfl
      rw [hp]
      rfl
  | case3 a b =>
      have hab : a < 256 ∧ b < 256 := by simpa [strOk] using h
      obtain ⟨ha, hb⟩ := hab
      simp only [encB64, evpDecodeQuads]
      rw [ascii2bin_binToAscii _ (by omega), ascii2bin_binToAscii _ (by omega),
        ascii2bin_binToAscii _ (by omega)]
      have h61 : ascii2bin 61 = 0 := by decide
      rw [h61]
      rw [if_pos (by omega)]
      have hb1 : (a / 4 * 262144 + (a % 4 * 16 + b / 16) * 4096
          + b % 16 * 4 * 64 + 0) / 65536 % 256 = a := by omega
      have hb2 : (a / 4 * 262144 + (a % 4 * 16 + b / 16) * 4096
          + b % 16 * 4 * 64 + 0) / 256 % 256 = b := by omega
      have hb3 : (a / 4 * 262144 + (a % 4 * 16 + b / 16) * 4096
          + b % 16 * 4 * 64 + 0) % 256 = 0 := by omega
      rw [hb1, hb2, hb3]
      have hp : padOf [a, b] = 1 := rfl
      rw [hp]
      rfl
  | case4 a b c rest ih =>
      have habc : a < 256 ∧ b < 256 ∧ c < 256 ∧ strOk rest = true := by
        simpa [strOk] using h
      obtain ⟨ha, hb, hc, hrest⟩ := habc
      simp only [encB64, evpDecodeQuads]
      rw [ascii2bin_binToAscii _ (by omega), ascii2bin_binToAscii _ (by omega),
        ascii2bin_binToAscii _ (by omega), ascii2bin_binToAscii _ (by omega)]
      rw [if_pos (by omega)]
      rw [ih hrest]
      have hb1 : (a / 4 * 262144 + (a % 4 * 16 + b / 16) * 4096
          + (b % 16 * 4 + c / 64) * 64 + c % 64) / 65536 % 256 = a := by omega
      have hb2 : (a / 4 * 262144 + (a % 4 * 16 + b / 16) * 4096
          + (b % 16 * 4 + c / 64) * 64 + c % 64) / 256 % 256 = b := by omega
      have hb3 : (a / 4 * 262144 + (a % 4 * 16 + b / 16) * 4096
          + (b % 16 * 4 + c / 64) * 64 + c % 64) % 256 = c := by omega
      rw [hb1, hb2, hb3]
      have hp : padOf (a :: b :: c :: rest) = padOf rest := by
        simp only [padOf, List.length_cons]
        omega
      rw [hp]
      rfl

theorem scanPaddings_alpha (c : Nat) (hne : c ≠ 61) (hws : isScanWs c = false)
    (rest : Str) : scanPaddings (c :: rest) 0 = scanPaddings rest 0 := by
  simp [scanPaddings, hne, hws]

theorem scanPaddings_encB64 (s : Str) (h : strOk s = true) :
    scanPaddings (encB64 s) 0 = some (padOf s) := by
  induction s using encB64.induct with
  | case1 => rfl
  | case2 a =>
      have ha : a < 256 := by simpa [strOk] using h
      show scanPaddings (binToAscii (a / 4) :: binToAscii (a % 4 * 16) :: [61, 61]) 0
        = some (padOf [a])
      rw [scanPaddings_alpha _ (binToAscii_ne61 _ (by omega))
        (binToAscii_not_scanWs _ (by omega))]
      rw [scanPaddings_alpha _ (binToAscii_ne61 _ (by omega))
        (binToAscii_not_scanWs _ (by omega))]
      rfl
  | case3 a b =>
      have hab : a < 256 ∧ b < 256 := by simpa [strOk] using h
      obtain ⟨ha, hb⟩ := hab
      show scanPaddings (binToAscii (a / 4) :: binToAscii (a % 4 * 16 + b / 16)
          :: binToAscii (b % 16 * 4) :: [61]) 0 = some (padOf [a, b])
      rw [scanPaddings_alpha _ (binToAscii_ne61 _ (by omega))
        (binToAscii_not_scanWs _ (by omega))]
      rw [scanPaddings_alpha _ (binToAscii_ne61 _ (by omega))
        (binToAscii_not_scanWs _ (by omega))]
      rw [scanPaddings_alpha _ (binToAscii_ne61 _ (by omega))
        (binToAscii_not_scanWs _ (by omega))]
      rfl
  | case4 a b c rest ih =>
      have habc : a < 256 ∧ b < 256 ∧ c < 256 ∧ strOk rest = true := by
        simpa [strOk] using h
      obtain ⟨ha, hb, hc, hrest⟩ := habc
      show scanPaddings (binToAscii (a / 4) :: binToAscii (a % 4 * 16 + b / 16)
          :: binToAscii (b % 16 * 4 + c / 64) :: binToAscii (c % 64)
          :: encB64 rest) 0 = some (padOf (a :: b :: c :: rest))
      rw [scanPaddings_alpha _ (binToAscii_ne61 _ (by omega))
        (binToAscii_not_scanWs _ (by omega))]
      rw [scanPaddings_alpha _ (binToAscii_ne61 _ (by omega))
        (binToAscii_not_scanWs _ (by omega))]
      rw [scanPaddings_alpha _ (binToAscii_ne61 _ (by omega))
        (binToAscii_not_scanWs _ (by omega))]
      rw [scanPaddings_alpha _ (binToAscii_ne61 _ (by omega))
        (binToAscii_not_scanWs _ (by omega))]
      have hp : padOf (a :: b :: c :: rest) = padOf rest := by
        simp only [padOf, List.length_cons]
        omega
      rw [hp]
      exact ih hrest


/-- Round trip of the base64 codec. -/
theorem DecodeBase64_EncodeBase64 (s : Str) (h : strOk s = true) :
    DecodeBase64 (EncodeBase64 s) = some s := by
  unfold DecodeBase64 EncodeBase64
  have hvals := encB64_vals s h
  have hdw : (encB64 s).dropWhile (fun c => ascii2bin c = 224) = encB64 s := by
    cases he : encB64 s with
    | nil => rfl
    | cons x t =>
        have hx : ascii2bin x < 64 := hvals x (by simp [he])
        have hxf : decide (ascii2bin x = 224) = false := by
          simp only [decide_eq_false_iff_not]
          omega
        simp [List.dropWhile, hxf]
  have hstrip : (stripEndRev (encB64 s).reverse).reverse = encB64 s := by
    cases hr : (encB64 s).reverse with
    | nil => simp [stripEndRev, ← hr]
    | cons y yr =>
        have hy : y ∈ encB64 s := by
          have hm : y ∈ (encB64 s).reverse := by simp [hr]
          simpa using hm
        have hy64 : ascii2bin y < 64 := hvals y hy
        have hnb : b64NotBase64 (ascii2bin y) = false := notB64_of_lt64 _ hy64
        simp only [stripEndRev]
        rw [if_neg (by simp [hnb])]
        rw [← hr, List.reverse_reverse]
  have hblock : evpDecodeBlock (encB64 s)
      = some (s ++ List.replicate (padOf s) 0) := by
    simp only [evpDecodeBlock]
    rw [hdw, hstrip]
    rw [if_neg (by simp [encB64_len s])]
    exact evpDecodeQuads_encB64 s h
  rw [scanPaddings_encB64 s h, hblock]
  have hple : ¬ 3 < padOf s := by unfold padOf; omega
  simp [hple, List.take_left]

/-! ### zlib compression (modelled)

Modelled from the spec: Charon's `Compress` / `Uncompress` wrap zlib's
utility functions `compress` / `uncompress` (an external library).  All
the claims need from the pair is zlib's documented contract — that
`uncompress` inverts `compress`, that corrupt input fails, and that the
caller's expected-size check is exact — so the model is a concrete
executable lossless compressor (run-length coding with runs capped at
255), which genuinely compresses repetitive payloads and therefore
exercises the encoder's compression branch. -/

/-- Length (capped) of the run of `b` at the front of the input, with
the remainder. -/
def takeRun (b : Nat) : Str → Nat → Nat × Str
  | [], _ => (0, [])
  | c :: rest, cap =>
      if cap = 0 then (0, c :: rest)
      else if c = b then
        let pr := takeRun b rest (cap - 1)
        (pr.1 + 1, pr.2)
      else (0, c :: rest)

theorem takeRun_spec (b : Nat) (s : Str) (cap : Nat) :
    (takeRun b s cap).1 ≤ cap
      ∧ s = List.replicate (takeRun b s cap).1 b ++ (takeRun b s cap).2
      ∧ (takeRun b s cap).2.length ≤ s.length := by
  induction s generalizing cap with
  | nil => simp [takeRun]
  | cons c rest ih =>
      by_cases hcap : cap = 0
      · simp [takeRun, hcap]
      · by_cases hc : c = b
        · subst hc
          obtain ⟨h1, h2, h3⟩ := ih (cap - 1)
          have he : takeRun c (c :: rest) cap
              = ((takeRun c rest (cap - 1)).1 + 1, (takeRun c rest (cap - 1)).2) := by
            simp [takeRun, hcap]
          rw [he]
          refine ⟨by omega, ?_, by simp only [List.length_cons]; omega⟩
          calc c :: rest
              = c :: (List.replicate (takeRun c rest (cap - 1)).1 c
                  ++ (takeRun c rest (cap - 1)).2) := by rw [← h2]
            _ = _ := by simp [List.replicate_succ]
        · simp [takeRun, hcap, hc]

/-- The run-length compressor standing in for zlib `compress`. -/
def zcompress : Str → Str
  | [] => []
  | b :: rest =>
      ((takeRun b rest 254).1 + 1) :: b :: zcompress (takeRun b rest 254).2
termination_by s => s.length
decreasing_by
  simp only [List.length_cons]
  exact Nat.lt_succ_of_le (takeRun_spec _ _ 254).2.2

/-- The run-length decompressor standing in for zlib `uncompress`
(failure models a zlib error on corrupt data). -/
def zuncompress : Str → Option Str
  | [] => some []
  | [_] => none
  | c :: b :: rest =>
      if c = 0 then none
      else
        match zuncompress rest with
        | some tl => some (List.replicate c b ++ tl)
        | none => none

theorem zuncompress_zcompress (s : Str) : zuncompress (zcompress s) = some s := by
  induction s using zcompress.induct with
  | case1 => simp [zcompress, zuncompress]
  | case2 b rest ih =>
      obtain ⟨h1, h2, h3⟩ := takeRun_spec b rest 254
      have hz : zcompress (b :: rest)
          = ((takeRun b rest 254).1 + 1) :: b :: zcompress (takeRun b rest 254).2 := by
        simp [zcompress]
      rw [hz]
      simp only [zuncompress]
      rw [if_neg (by omega), ih]
      simp [List.replicate_succ, ← h2]

theorem strOk_zcompress (s : Str) (h : strOk s = true) :
    strOk (zcompress s) = true := by
  induction s using zcompress.induct with
  | case1 => simp [zcompress, strOk]
  | case2 b rest ih =>
      obtain ⟨h1, h2, h3⟩ := takeRun_spec b rest 254
      simp only [strOk, List.all_eq_true] at h
      have hb : b < 256 := by
        have := h b (List.mem_cons_self b rest)
        simpa using this
      have hrest : strOk (takeRun b rest 254).2 = true := by
        simp only [strOk, List.all_eq_true]
        intro x hx
        refine h x (List.mem_cons_of_mem b ?_)
        rw [h2]
        exact List.mem_append_right _ hx
      have hz : zcompress (b :: rest)
          = ((takeRun b rest 254).1 + 1) :: b :: zcompress (takeRun b rest 254).2 := by
        simp [zcompress]
      rw [hz]
      simp only [strOk, List.all_eq_true]
      intro x hx
      rcases List.mem_cons.mp hx with rfl | hx2
      · simp
        omega
      · rcases List.mem_cons.mp hx2 with rfl | hx3
        · simp
          omega
        · have hrec := ih hrest
          simp only [strOk, List.all_eq_true] at hrec
          exact hrec x hx3

/-- Charon's `Uncompress` (`xmldata.cpp`): decompress and check the
decompressed size against the expected length (a too-small buffer or a
size mismatch both fail). -/
def Uncompress (compressed : Str) (len : Nat) : Option Str :=
  match zuncompress compressed with
  | none => none
  | some d => if d.length = len then some d else none

/-- Charon's `Compress`. -/
def Compress (data : Str) : Str := zcompress data

/-! ### XML payload codec (`xmldata.cpp`, full version with raw, base64
and zlib payloads) -/

/-- Maximum accumulated decoded payload size: 64 MiB. -/
def MAX_XML_PAYLOAD_SIZE : Nat := 64 * 1048576

/-- Minimum payload length before compression is attempted. -/
def MIN_COMPRESS_LEN : Nat := 128

/-- Maximum percentage of the raw size the compressed payload may have
for the compressed form to be used. -/
def MAX_COMPRESSED_PERCENT : Nat := 70

/-- `CanStoreRaw`: the payload consists only of newline and printable
ASCII bytes (0x20-0x7f); such payloads go into a `<raw>` child. -/
def CanStoreRaw (s : Str) : Bool :=
  s.all (fun c => c = 10 || (32 ≤ c && c < 128))

/-- `EncodeXmlBase64`: a `<base64>` element holding the encoded
payload as character data. -/
def EncodeXmlBase64 (payload : Str) : Tag :=
  Tag.mk (bytes "base64") [] (EncodeBase64 payload) []

/-- `EncodeXmlPayload`: an element of the given name holding the payload
as zero or one child elements: nothing for the empty payload; a `<zlib>`
child (size attribute plus nested base64 of the compressed bytes) when
the payload is long enough and compresses to at most 70 percent;
otherwise a `<raw>` child when the payload is raw-able, else a
`<base64>` child. -/
def EncodeXmlPayload (name : Str) (payload : Str) : Tag :=
  if payload = [] then Tag.mk name [] [] []
  else if MIN_COMPRESS_LEN ≤ payload.length
      ∧ (Compress payload).length * 100 ≤ MAX_COMPRESSED_PERCENT * payload.length then
    Tag.mk name [] []
      [Tag.mk (bytes "zlib") [(bytes "size", natDec payload.length)] []
        [EncodeXmlBase64 (Compress payload)]]
  else if CanStoreRaw payload then
    Tag.mk name [] [] [Tag.mk (bytes "raw") [] payload []]
  else
    Tag.mk name [] [] [EncodeXmlBase64 payload]

mutual

/-- `DecodePayloadTag`: decodes one payload child element: `<raw>`
yields its character data, `<base64>` decodes its character data,
`<zlib>` reads the size attribute, decodes its own children as a
payload and decompresses; any other name fails. -/
def DecodePayloadTag : Tag → Option Str
  | Tag.mk nm attrs cdata children =>
      if nm = bytes "raw" then some cdata
      else if nm = bytes "base64" then DecodeBase64 cdata
      else if nm = bytes "zlib" then
        match decodeChildren children 0 with
        | none => none
        | some compressed =>
            Uncompress compressed
              (readNatAttr (match attrs.lookup (bytes "size") with
                | some v => v
                | none => []))
      else none

/-- The decoding loop of `DecodeXmlPayload`: concatenates the decoded
children in document order, failing as soon as the accumulated size
would exceed `MAX_XML_PAYLOAD_SIZE`. -/
def decodeChildren : List Tag → Nat → Option Str
  | [], _ => some []
  | t :: tl, len =>
      match DecodePayloadTag t with
      | none => none
      | some cur =>
          if MAX_XML_PAYLOAD_SIZE < len + cur.length then none
          else
            match decodeChildren tl (len + cur.length) with
            | some restS => some (cur ++ restS)
            | none => none

end

/-- `DecodeXmlPayload`: decodes and concatenates all children. -/
def DecodeXmlPayload (t : Tag) : Option Str := decodeChildren t.children 0

/-- `EncodeXmlJson`: serialise with the canonical writer, then encode
as a payload. -/
def EncodeXmlJson (name : Str) (v : Json) : Tag :=
  EncodeXmlPayload name (writeVal v)

/-- `DecodeXmlJson`: decode the payload, then parse it with the strict
reader. -/
def DecodeXmlJson (t : Tag) : Option Json :=
  match DecodeXmlPayload t with
  | none => none
  | some s => parseJson s

/-! ### The canonical writer emits genuine bytes -/

theorem strOk_append (a b : Str) : strOk (a ++ b) = (strOk a && strOk b) := by
  simp [strOk, List.all_append]

theorem strOk_natDec (n : Nat) : strOk (natDec n) = true := by
  simp only [strOk, List.all_eq_true, decide_eq_true_eq]
  intro x hx
  have := natDec_digits n x hx
  simp only [isDigitB, Bool.and_eq_true, decide_eq_true_eq] at this
  omega

theorem strOk_intDec (i : Int) : strOk (intDec i) = true := by
  unfold intDec
  split
  · simp only [strOk, List.all_eq_true, decide_eq_true_eq]
    intro x hx
    rcases List.mem_cons.mp hx with rfl | hx2
    · omega
    · have := strOk_natDec (-i).toNat
      simp only [strOk, List.all_eq_true, decide_eq_true_eq] at this
      exact this x hx2
  · exact strOk_natDec i.toNat

set_option maxRecDepth 8192 in
theorem escByte_all : ∀ b < 256, strOk (escByte b) = true := by decide

theorem strOk_escapeStr (s : Str) (h : strOk s = true) :
    strOk (escapeStr s) = true := by
  simp only [strOk, List.all_eq_true, decide_eq_true_eq] at h ⊢
  intro x hx
  unfold escapeStr at hx
  simp only [List.mem_flatten, List.mem_map] at hx
  obtain ⟨l, ⟨b, hb, rfl⟩, hxl⟩ := hx
  have := escByte_all b (h b hb)
  simp only [strOk, List.all_eq_true, decide_eq_true_eq] at this
  exact this x hxl

mutual

theorem strOk_writeVal : ∀ v : Json, jwf v = true → strOk (writeVal v) = true
  | .null, _ => by rfl
  | .bool true, _ => by rfl
  | .bool false, _ => by rfl
  | .int n, _ => strOk_intDec n
  | .str s, h => by
      have hs := strOk_escapeStr s (by simpa [jwf] using h)
      simp only [writeVal]
      simp only [strOk, List.all_cons, List.all_append] at hs ⊢
      simp [hs]
  | .arr l, h => by
      have hl := strOk_writeElems l (by simpa [jwf] using h)
      simp only [writeVal]
      simpa [strOk] using hl
  | .obj o, h => by
      have ho := strOk_writeFields o (by simpa [jwf] using h)
      simp only [writeVal]
      simpa [strOk] using ho

theorem strOk_writeElems : ∀ l : List Json, jwfList l = true → strOk (writeElems l) = true
  | [], _ => by rfl
  | [v], h => by
      have h1 := strOk_writeVal v (by simpa [jwfList, jwf] using h)
      simp only [writeElems]
      simp only [strOk, List.all_append, List.all_cons] at h1 ⊢
      simp [h1]
  | v :: v2 :: tl, h => by
      have hj : jwf v = true ∧ jwfList (v2 :: tl) = true := by
        simpa [jwfList] using h
      have h1 := strOk_writeVal v hj.1
      have h2 := strOk_writeElems (v2 :: tl) hj.2
      simp only [writeElems]
      simp only [strOk, List.all_append, List.all_cons] at h1 h2 ⊢
      simp [h1, h2]

theorem strOk_writeFields : ∀ o : List (Str × Json), jwfObj o = true → strOk (writeFields o) = true
  | [], _ => by rfl
  | [(k, v)], h => by
      have h0 : (strOk k && decide (∀ kv ∈ ([] : List (Str × Json)), kv.1 ≠ k)
          && jwf v && jwfObj []) = true := h
      simp only [Bool.and_eq_true] at h0
      have h1 := strOk_escapeStr k h0.1.1.1
      have h2 := strOk_writeVal v h0.1.2
      simp only [writeFields]
      simp only [strOk, List.all_append, List.all_cons] at h1 h2 ⊢
      simp [h1, h2]
  | (k, v) :: p :: tl, h => by
      have h0 : (strOk k && decide (∀ kv ∈ p :: tl, kv.1 ≠ k)
          && jwf v && jwfObj (p :: tl)) = true := h
      simp only [Bool.and_eq_true] at h0
      have h1 := strOk_escapeStr k h0.1.1.1
      have h2 := strOk_writeVal v h0.1.2
      have h3 := strOk_writeFields (p :: tl) h0.2
      simp only [writeFields]
      simp only [strOk, List.all_append, List.all_cons] at h1 h2 h3 ⊢
      simp [h1, h2, h3]

end

/-! ### Round trip and size cap of the payload codec -/

theorem DecodePayloadTag_raw (attrs : List (Str × Str)) (cdata : Str)
    (children : List Tag) :
    DecodePayloadTag (Tag.mk (bytes "raw") attrs cdata children) = some cdata := by
  simp only [DecodePayloadTag, if_true]

theorem DecodePayloadTag_b64 (attrs : List (Str × Str)) (cdata : Str)
    (children : List Tag) :
    DecodePayloadTag (Tag.mk (bytes "base64") attrs cdata children)
      = DecodeBase64 cdata := by
  simp only [DecodePayloadTag, if_true]
  rw [if_neg (by decide)]

theorem DecodePayloadTag_zlib (attrs : List (Str × Str)) (cdata : Str)
    (children : List Tag) :
    DecodePayloadTag (Tag.mk (bytes "zlib") attrs cdata children) =
      match decodeChildren children 0 with
      | none => none
      | some compressed =>
          Uncompress compressed
            (readNatAttr (match attrs.lookup (bytes "size") with
              | some v => v
              | none => [])) := by
  simp only [DecodePayloadTag, if_true]
  rw [if_neg (by decide), if_neg (by decide)]

theorem decodeChildren_singleton (t : Tag) (d : Str)
    (hd : DecodePayloadTag t = some d) (hl : d.length ≤ MAX_XML_PAYLOAD_SIZE) :
    decodeChildren [t] 0 = some d := by
  simp only [decodeChildren, hd]
  rw [if_neg (by omega)]
  simp [decodeChildren]

theorem DecodeXmlPayload_EncodeXmlPayload (name payload : Str)
    (hok : strOk payload = true) (hlen : payload.length ≤ MAX_XML_PAYLOAD_SIZE) :
    DecodeXmlPayload (EncodeXmlPayload name payload) = some payload := by
  unfold EncodeXmlPayload
  by_cases hnil : payload = []
  · subst hnil
    simp [DecodeXmlPayload, Tag.children, decodeChildren]
  · rw [if_neg hnil]
    by_cases hz : MIN_COMPRESS_LEN ≤ payload.length
        ∧ (Compress payload).length * 100 ≤ MAX_COMPRESSED_PERCENT * payload.length
    · rw [if_pos hz]
      simp only [DecodeXmlPayload, Tag.children]
      have hb64 : DecodePayloadTag (EncodeXmlBase64 (Compress payload))
          = some (Compress payload) := by
        unfold EncodeXmlBase64
        rw [DecodePayloadTag_b64]
        exact DecodeBase64_EncodeBase64 _ (strOk_zcompress _ hok)
      have h70 : (Compress payload).length * 100 ≤ 70 * payload.length := hz.2
      have hclen : (Compress payload).length ≤ MAX_XML_PAYLOAD_SIZE := by
        have hpm := hlen
        omega
      have hinner : DecodePayloadTag
          (Tag.mk (bytes "zlib") [(bytes "size", natDec payload.length)] []
            [EncodeXmlBase64 (Compress payload)]) = some payload := by
        rw [DecodePayloadTag_zlib]
        rw [decodeChildren_singleton _ _ hb64 hclen]
        have hbeq : (bytes "size" == bytes "size") = true := by simp
        simp only [List.lookup, hbeq]
        simp [Uncompress, Compress, zuncompress_zcompress, readNatAttr_natDec]
      exact decodeChildren_singleton _ _ hinner hlen
    · rw [if_neg hz]
      by_cases hr : CanStoreRaw payload
      · rw [if_pos hr]
        simp only [DecodeXmlPayload, Tag.children]
        exact decodeChildren_singleton _ _ (DecodePayloadTag_raw _ _ _) hlen
      · rw [if_neg hr]
        simp only [DecodeXmlPayload, Tag.children]
        refine decodeChildren_singleton _ _ ?_ hlen
        unfold EncodeXmlBase64
        rw [DecodePayloadTag_b64]
        exact DecodeBase64_EncodeBase64 _ hok

/-- Total decoded size of a list of children (failure when some child
does not decode). -/
def childSizes : List Tag → Option Nat
  | [] => some 0
  | t :: tl =>
      match DecodePayloadTag t with
      | none => none
      | some cur =>
          match childSizes tl with
          | none => none
          | some n => some (cur.length + n)

theorem decodeChildren_overflow (ts : List Tag) (acc n : Nat)
    (hacc : acc ≤ MAX_XML_PAYLOAD_SIZE)
    (hs : childSizes ts = some n) (hover : MAX_XML_PAYLOAD_SIZE < acc + n) :
    decodeChildren ts acc = none := by
  induction ts generalizing acc n with
  | nil =>
      simp [childSizes] at hs
      omega
  | cons t tl ih =>
      simp only [childSizes] at hs
      cases hd : DecodePayloadTag t with
      | none => rw [hd] at hs; simp at hs
      | some cur =>
          rw [hd] at hs
          cases hrest : childSizes tl with
          | none => rw [hrest] at hs; simp at hs
          | some m =>
              rw [hrest] at hs
              simp only [Option.some.injEq] at hs
              simp only [decodeChildren, hd]
              by_cases hcap : MAX_XML_PAYLOAD_SIZE < acc + cur.length
              · rw [if_pos hcap]
              · rw [if_neg hcap]
                rw [ih (acc + cur.length) m (by omega) hrest (by omega)]

/-- A wrapper whose children decode to more than the 64 MiB cap fails
to decode. -/
theorem DecodeXmlPayload_overflow (t : Tag) (n : Nat)
    (hs : childSizes t.children = some n) (hover : MAX_XML_PAYLOAD_SIZE < n) :
    DecodeXmlPayload t = none := by
  unfold DecodeXmlPayload
  exact decodeChildren_overflow _ 0 n (by omega) hs (by omega)

theorem DecodeXmlJson_EncodeXmlJson (name : Str) (v : Json) (hwf : jwf v = true)
    (hlen : (writeVal v).length ≤ MAX_XML_PAYLOAD_SIZE) :
    DecodeXmlJson (EncodeXmlJson name v) = some v := by
  unfold DecodeXmlJson EncodeXmlJson
  rw [DecodeXmlPayload_EncodeXmlPayload name (writeVal v) (strOk_writeVal v hwf) hlen]
  exact parseJson_writeVal v hwf

/-! ### Typed stanzas (`stanzas.cpp`)

Each stanza type is a structure with a `valid` flag, a parser from a
`Tag` (the C++ constructor from `gloox::Tag`) and a serializer to a
`Tag` (the C++ `tag()` method, which the code only calls on valid
instances). -/

/-- Lexicographic byte-wise order on strings (`std::string`
`operator<`, which compares as unsigned chars). -/
def ltStr : Str → Str → Bool
  | [], [] => false
  | [], _ :: _ => true
  | _ :: _, [] => false
  | a :: as, b :: bs => if a < b then true else if b < a then false else ltStr as bs

/-- `std::map::emplace`: insert at the sorted position unless the key
is already present (in which case the map is unchanged). -/
def emplace (m : List (Str × Str)) (k v : Str) : List (Str × Str) :=
  match m with
  | [] => [(k, v)]
  | (k2, v2) :: tl =>
      if ltStr k k2 then (k, v) :: (k2, v2) :: tl
      else if k = k2 then (k2, v2) :: tl
      else (k2, v2) :: emplace tl k v

/-- `RpcRequest`: a method call with method name and params. -/
structure RpcRequest where
  valid : Bool
  method : Str
  params : Json
deriving DecidableEq

/-- The field constructor `RpcRequest(m, p)` (always marked valid). -/
def RpcRequest.fromFields (m : Str) (p : Json) : RpcRequest := ⟨true, m, p⟩

/-- The parsing constructor `RpcRequest(const gloox::Tag&)`. -/
def RpcRequest.parse (t : Tag) : RpcRequest :=
  match t.findChild (bytes "method") with
  | none => ⟨false, [], .null⟩
  | some child =>
      let m := child.cdata
      if m = [] then ⟨false, m, .null⟩
      else
        match t.findChild (bytes "params") with
        | none => ⟨false, m, .null⟩
        | some pc =>
            match DecodeXmlJson pc with
            | none => ⟨false, m, .null⟩
            | some p =>
                if p.isObjArrNull then ⟨true, m, p⟩ else ⟨false, m, p⟩

/-- `RpcRequest::tag()`. -/
def RpcRequest.tag (r : RpcRequest) : Tag :=
  Tag.mk (bytes "request") [(bytes "xmlns", charonXmlns)] []
    [Tag.mk (bytes "method") [] r.method [],
     EncodeXmlJson (bytes "params") r.params]

/-- `RpcResponse`: success with a result, or error with code, message
and data. -/
structure RpcResponse where
  valid : Bool
  success : Bool
  result : Json
  errorCode : Int
  errorMsg : Str
  errorData : Json
deriving DecidableEq

/-- The success-branch field constructor `RpcResponse(res)`. -/
def RpcResponse.fromResult (res : Json) : RpcResponse :=
  ⟨true, true, res, 0, [], .null⟩

/-- The error-branch field constructor `RpcResponse(c, msg, d)`. -/
def RpcResponse.fromError (c : Int) (msg : Str) (d : Json) : RpcResponse :=
  ⟨true, false, .null, c, msg, d⟩

/-- The parsing constructor `RpcResponse(const gloox::Tag&)`.  The code
attribute is read with `std::istringstream >> errorCode` without a
stream-state check, so a malformed attribute leaves 0 (C++11). -/
def RpcResponse.parse (t : Tag) : RpcResponse :=
  match t.findChild (bytes "result") with
  | some outer =>
      if t.hasChild (bytes "error") then ⟨false, false, .null, 0, [], .null⟩
      else
        match DecodeXmlJson outer with
        | none => ⟨false, false, .null, 0, [], .null⟩
        | some r => ⟨true, true, r, 0, [], .null⟩
  | none =>
      match t.findChild (bytes "error") with
      | none => ⟨false, false, .null, 0, [], .null⟩
      | some outer =>
          if outer.hasAttribute (bytes "code") = false then
            ⟨false, false, .null, 0, [], .null⟩
          else
            let code := readIntAttr (outer.findAttribute (bytes "code"))
            let msg :=
              match outer.findChild (bytes "message") with
              | none => []
              | some c => c.cdata
            match outer.findChild (bytes "data") with
            | none => ⟨true, false, .null, code, msg, .null⟩
            | some dc =>
                match DecodeXmlJson dc with
                | none => ⟨false, false, .null, code, msg, .null⟩
                | some d => ⟨true, false, .null, code, msg, d⟩

/-- `RpcResponse::tag()`: the success branch emits one `result` child;
the error branch emits an `error` child with decimal code attribute, a
`message` child only when the message is non-empty and a `data` child
only when the data is non-null. -/
def RpcResponse.tag (r : RpcResponse) : Tag :=
  if r.success then
    Tag.mk (bytes "response") [(bytes "xmlns", charonXmlns)] []
      [EncodeXmlJson (bytes "result") r.result]
  else
    Tag.mk (bytes "response") [(bytes "xmlns", charonXmlns)] []
      [Tag.mk (bytes "error") [(bytes "code", intDec r.errorCode)] []
        ((if r.errorMsg = [] then []
          else [Tag.mk (bytes "message") [] r.errorMsg []])
          ++ (if r.errorData.isNull then []
              else [EncodeXmlJson (bytes "data") r.errorData]))]

/-- `PingMessage::tag()` (a ping is always valid and has no fields). -/
def PingMessage.tag : Tag :=
  Tag.mk (bytes "ping") [(bytes "xmlns", charonXmlns)] [] []

/-- `PongMessage`: carries an optional version string (empty when the
attribute is absent). -/
structure PongMessage where
  valid : Bool
  version : Str
deriving DecidableEq

/-- The field constructor `PongMessage(v)`. -/
def PongMessage.fromVersion (v : Str) : PongMessage := ⟨true, v⟩

/-- The parsing constructor `PongMessage(const gloox::Tag&)` (always
valid; a missing attribute means empty version). -/
def PongMessage.parse (t : Tag) : PongMessage :=
  ⟨true, t.findAttribute (bytes "version")⟩

/-- `PongMessage::tag()` (omits the attribute for an empty version). -/
def PongMessage.tag (p : PongMessage) : Tag :=
  Tag.mk (bytes "pong")
    (if p.version = [] then [(bytes "xmlns", charonXmlns)]
     else [(bytes "xmlns", charonXmlns), (bytes "version", p.version)]) [] []

/-- `SupportedNotifications`: a pub/sub service plus the map from
notification type to node, held sorted by type (`std::map`). -/
structure SupportedNotifications where
  valid : Bool
  service : Str
  notifications : List (Str × Str)
deriving DecidableEq

/-- The field constructor `SupportedNotifications(s)`. -/
def SupportedNotifications.fromService (s : Str) : SupportedNotifications :=
  ⟨true, s, []⟩

/-- `SupportedNotifications::AddNotification` (the code `CHECK`s that
type and node are non-empty and the type fresh). -/
def SupportedNotifications.AddNotification (sn : SupportedNotifications)
    (ty node : Str) : SupportedNotifications :=
  ⟨sn.valid, sn.service, emplace sn.notifications ty node⟩

/-- One iteration of the notification-children loop of the parsing
constructor: entries with empty type or empty node are skipped, and a
duplicate type leaves the map unchanged (first wins, with only a log
message). -/
def snotifStep (m : List (Str × Str)) (c : Tag) : List (Str × Str) :=
  let ty := c.findAttribute (bytes "type")
  if ty = [] then m
  else
    let node := c.cdata
    if node = [] then m
    else emplace m ty node

/-- The parsing constructor
`SupportedNotifications(const gloox::Tag&)`. -/
def SupportedNotifications.parse (t : Tag) : SupportedNotifications :=
  let s := t.findAttribute (bytes "service")
  if s = [] then ⟨false, s, []⟩
  else ⟨true, s, (t.findChildren (bytes "notification")).foldl snotifStep []⟩

/-- `SupportedNotifications::tag()`: one `notification` child per map
entry, in sorted map order. -/
def SupportedNotifications.tag (sn : SupportedNotifications) : Tag :=
  Tag.mk (bytes "notifications")
    [(bytes "xmlns", charonXmlns), (bytes "service", sn.service)] []
    (sn.notifications.map
      (fun e => Tag.mk (bytes "notification") [(bytes "type", e.1)] e.2 []))

/-- `NotificationUpdate`: a typed state payload. -/
structure NotificationUpdate where
  valid : Bool
  type : Str
  newState : Json
deriving DecidableEq

/-- The field constructor `NotificationUpdate(t, s)` (the code `CHECK`s
the type is non-empty). -/
def NotificationUpdate.fromFields (t : Str) (s : Json) : NotificationUpdate :=
  ⟨true, t, s⟩

/-- The parsing constructor `NotificationUpdate(const gloox::Tag&)`. -/
def NotificationUpdate.parse (t : Tag) : NotificationUpdate :=
  let ty := t.findAttribute (bytes "type")
  if ty = [] then ⟨false, ty, .null⟩
  else
    match DecodeXmlJson t with
    | none => ⟨false, ty, .null⟩
    | some s => ⟨true, ty, s⟩

/-- `NotificationUpdate::CreateTag()`: the payload encoding of the new
state, with namespace and type attributes added. -/
def NotificationUpdate.CreateTag (n : NotificationUpdate) : Tag :=
  (((EncodeXmlJson (bytes "update") n.newState).addAttribute
      (bytes "xmlns") charonXmlns).addAttribute (bytes "type") n.type)

/-! ### Stanza round trips -/

theorem Json.isNull_eq (v : Json) : (Json.isNull v = true) ↔ v = .null := by
  cases v <;> simp [Json.isNull]

theorem EncodeXmlPayload_name (nm payload : Str) :
    (EncodeXmlPayload nm payload).name = nm := by
  unfold EncodeXmlPayload
  split_ifs <;> rfl

theorem EncodeXmlPayload_attrs (nm payload : Str) :
    (EncodeXmlPayload nm payload).attrs = [] := by
  unfold EncodeXmlPayload
  split_ifs <;> rfl

theorem DecodeXmlJson_children (n c n2 c2 : List Nat) (a3 : List (Str × Str))
    (a4 : List (Str × Str)) (ch : List Tag) :
    DecodeXmlJson (Tag.mk n a3 c ch) = DecodeXmlJson (Tag.mk n2 a4 c2 ch) := by
  simp [DecodeXmlJson, DecodeXmlPayload, Tag.children]

theorem RpcRequest_roundtrip (m : Str) (p : Json) (hm : m ≠ [])
    (hp : p.isObjArrNull = true) (hw : jwf p = true)
    (hl : (writeVal p).length ≤ MAX_XML_PAYLOAD_SIZE) :
    RpcRequest.parse (RpcRequest.tag (RpcRequest.fromFields m p))
      = RpcRequest.fromFields m p := by
  have hn : (EncodeXmlJson (bytes "params") p).name = bytes "params" :=
    EncodeXmlPayload_name _ _
  unfold RpcRequest.fromFields RpcRequest.tag RpcRequest.parse
  rcases hE : EncodeXmlJson (bytes "params") p with ⟨nE, aE, cE, chE⟩
  have hn2 : nE = bytes "params" := by rw [hE] at hn; simpa [Tag.name] using hn
  subst hn2
  have hdec : DecodeXmlJson (Tag.mk (bytes "params") aE cE chE) = some p := by
    rw [← hE]
    exact DecodeXmlJson_EncodeXmlJson _ _ hw hl
  have hne : (bytes "method" = bytes "params") = False := by decide
  have hne2 : (bytes "params" = bytes "method") = False := by decide
  simp [Tag.findChild, Tag.children, List.find?, Tag.name, Tag.cdata, hne, hne2,
    hdec, hm, hp]

theorem RpcResponse_result_roundtrip (res : Json) (hw : jwf res = true)
    (hl : (writeVal res).length ≤ MAX_XML_PAYLOAD_SIZE) :
    RpcResponse.parse (RpcResponse.tag (RpcResponse.fromResult res))
      = RpcResponse.fromResult res := by
  have hn : (EncodeXmlJson (bytes "result") res).name = bytes "result" :=
    EncodeXmlPayload_name _ _
  unfold RpcResponse.fromResult RpcResponse.tag RpcResponse.parse
  rcases hE : EncodeXmlJson (bytes "result") res with ⟨nE, aE, cE, chE⟩
  have hn2 : nE = bytes "result" := by rw [hE] at hn; simpa [Tag.name] using hn
  subst hn2
  have hdec : DecodeXmlJson (Tag.mk (bytes "result") aE cE chE) = some res := by
    rw [← hE]
    exact DecodeXmlJson_EncodeXmlJson _ _ hw hl
  have hne : (bytes "result" = bytes "error") = False := by decide
  simp [Tag.findChild, Tag.children, Tag.hasChild, List.find?, Tag.name, hne, hdec]

theorem RpcResponse_error_roundtrip (c : Int) (msg : Str) (d : Json)
    (hw : jwf d = true) (hl : (writeVal d).length ≤ MAX_XML_PAYLOAD_SIZE) :
    RpcResponse.parse (RpcResponse.tag (RpcResponse.fromError c msg d))
      = RpcResponse.fromError c msg d := by
  have hne1 : (bytes "error" = bytes "result") = False := by decide
  have hne2 : (bytes "message" = bytes "data") = False := by decide
  have hbeq : (bytes "code" == bytes "code") = true := by simp
  unfold RpcResponse.fromError RpcResponse.tag RpcResponse.parse
  by_cases hd : d = .null
  · subst hd
    by_cases hm : msg = []
    · subst hm
      simp [Tag.findChild, Tag.children, Tag.hasChild, Tag.hasAttribute,
        Tag.findAttribute, Tag.attrs, Tag.name, Tag.cdata, List.find?,
        List.lookup, hne1, hbeq, Json.isNull, readIntAttr_intDec]
    · simp only [Json.isNull, if_neg hm]
      simp [Tag.findChild, Tag.children, Tag.hasChild, Tag.hasAttribute,
        Tag.findAttribute, Tag.attrs, Tag.name, Tag.cdata, List.find?,
        List.lookup, hne1, hne2, hbeq, hm, readIntAttr_intDec]
  · have hdn : Json.isNull d = false := by
      cases d <;> simp_all [Json.isNull]
    have hn : (EncodeXmlJson (bytes "data") d).name = bytes "data" :=
      EncodeXmlPayload_name _ _
    rcases hE : EncodeXmlJson (bytes "data") d with ⟨nE, aE, cE, chE⟩
    have hn2 : nE = bytes "data" := by rw [hE] at hn; simpa [Tag.name] using hn
    subst hn2
    have hdec : DecodeXmlJson (Tag.mk (bytes "data") aE cE chE) = some d := by
      rw [← hE]
      exact DecodeXmlJson_EncodeXmlJson _ _ hw hl
    have hne3 : (bytes "data" = bytes "message") = False := by decide
    by_cases hm : msg = []
    · subst hm
      simp [Tag.findChild, Tag.children, Tag.hasChild, Tag.hasAttribute,
        Tag.findAttribute, Tag.attrs, Tag.name, Tag.cdata, List.find?,
        List.lookup, hne1, hne3, hbeq, hdn, hdec, readIntAttr_intDec]
    · simp [Tag.findChild, Tag.children, Tag.hasChild, Tag.hasAttribute,
        Tag.findAttribute, Tag.attrs, Tag.name, Tag.cdata, List.find?,
        List.lookup, hne1, hne2, hne3, hbeq, hdn, hdec, hm, readIntAttr_intDec]

theorem ltStr_irrefl (s : Str) : ltStr s s = false := by
  induction s with
  | nil => rfl
  | cons a as ih => simp [ltStr, lt_self_iff_false, ih]

theorem ltStr_asymm (a b : Str) (h : ltStr a b = true) : ltStr b a = false := by
  induction a generalizing b with
  | nil =>
      cases b with
      | nil => rfl
      | cons y ys => rfl
  | cons x xs ih =>
      cases b with
      | nil => simp [ltStr] at h
      | cons y ys =>
          simp only [ltStr] at h ⊢
          by_cases h1 : x < y
          · rw [if_neg (by omega), if_pos h1]
          · rw [if_neg h1] at h
            by_cases h2 : y < x
            · rw [if_pos h2] at h
              simp at h
            · rw [if_neg h2] at h
              rw [if_neg h2, if_neg h1]
              exact ih ys h

theorem ltStr_ne (a b : Str) (h : ltStr a b = true) : a ≠ b := by
  intro he
  subst he
  rw [ltStr_irrefl] at h
  simp at h

theorem emplace_append (m : List (Str × Str)) (k v : Str)
    (h : ∀ e ∈ m, ltStr e.1 k = true) :
    emplace m k v = m ++ [(k, v)] := by
  induction m with
  | nil => rfl
  | cons e tl ih =>
      obtain ⟨k2, v2⟩ := e
      have h2 : ltStr k2 k = true := h (k2, v2) (List.mem_cons_self _ _)
      have hlt : ltStr k k2 = false := ltStr_asymm _ _ h2
      have hne : ¬ k = k2 := fun he => ltStr_ne _ _ h2 he.symm
      have htl := ih (fun e he => h e (List.mem_cons_of_mem _ he))
      simp [emplace, hlt, hne, htl]

theorem snotif_fold (ns : List (Str × Str)) (m0 : List (Str × Str))
    (hs : ∀ e ∈ m0, ∀ e2 ∈ ns, ltStr e.1 e2.1 = true)
    (hp : List.Pairwise (fun a b => ltStr a.1 b.1 = true) ns)
    (hne : ∀ e ∈ ns, e.1 ≠ [] ∧ e.2 ≠ []) :
    (ns.map (fun e =>
        Tag.mk (bytes "notification") [(bytes "type", e.1)] e.2 [])).foldl
      snotifStep m0 = m0 ++ ns := by
  induction ns generalizing m0 with
  | nil => simp
  | cons e tl ih =>
      obtain ⟨k, v⟩ := e
      obtain ⟨hk, hv⟩ := hne (k, v) (List.mem_cons_self _ _)
      rw [List.pairwise_cons] at hp
      simp only [List.map_cons, List.foldl_cons]
      have hstep : snotifStep m0
          (Tag.mk (bytes "notification") [(bytes "type", k)] v [])
          = m0 ++ [(k, v)] := by
        unfold snotifStep
        have hfa : Tag.findAttribute
            (Tag.mk (bytes "notification") [(bytes "type", k)] v [])
            (bytes "type") = k := by
          simp [Tag.findAttribute, Tag.attrs, List.lookup]
        rw [hfa, if_neg hk]
        have hcd : Tag.cdata
            (Tag.mk (bytes "notification") [(bytes "type", k)] v []) = v := rfl
        rw [hcd, if_neg hv]
        exact emplace_append m0 k v
          (fun e he => hs e he (k, v) (List.mem_cons_self _ _))
      rw [hstep]
      have hs2 : ∀ e ∈ m0 ++ [(k, v)], ∀ e2 ∈ tl, ltStr e.1 e2.1 = true := by
        intro e he e2 he2
        rcases List.mem_append.mp he with h0 | h1
        · exact hs e h0 e2 (List.mem_cons_of_mem _ he2)
        · simp at h1
          subst h1
          exact hp.1 e2 he2
      have hne2 : ∀ e ∈ tl, e.1 ≠ [] ∧ e.2 ≠ [] :=
        fun e he => hne e (List.mem_cons_of_mem _ he)
      rw [ih (m0 ++ [(k, v)]) hs2 hp.2 hne2]
      simp

theorem SupportedNotifications_roundtrip (svc : Str) (hsvc : svc ≠ [])
    (ns : List (Str × Str))
    (hp : List.Pairwise (fun a b => ltStr a.1 b.1 = true) ns)
    (hne : ∀ e ∈ ns, e.1 ≠ [] ∧ e.2 ≠ []) :
    SupportedNotifications.parse
        (SupportedNotifications.tag ⟨true, svc, ns⟩)
      = ⟨true, svc, ns⟩ := by
  have hxs : (bytes "service" == bytes "xmlns") = false := by decide
  unfold SupportedNotifications.tag SupportedNotifications.parse
  have hfa : Tag.findAttribute
      (Tag.mk (bytes "notifications")
        [(bytes "xmlns", charonXmlns), (bytes "service", svc)] []
        (ns.map (fun e =>
          Tag.mk (bytes "notification") [(bytes "type", e.1)] e.2 [])))
      (bytes "service") = svc := by
    simp [Tag.findAttribute, Tag.attrs, List.lookup, hxs]
  simp only [hfa, if_neg hsvc]
  have hfc : Tag.findChildren
      (Tag.mk (bytes "notifications")
        [(bytes "xmlns", charonXmlns), (bytes "service", svc)] []
        (ns.map (fun e =>
          Tag.mk (bytes "notification") [(bytes "type", e.1)] e.2 [])))
      (bytes "notification")
      = ns.map (fun e =>
          Tag.mk (bytes "notification") [(bytes "type", e.1)] e.2 []) := by
    unfold Tag.findChildren
    refine List.filter_eq_self.mpr ?_
    intro x hx
    simp only [Tag.children, List.mem_map] at hx
    obtain ⟨e, he, rfl⟩ := hx
    simp [Tag.name]
  rw [hfc, snotif_fold ns [] (by simp) hp hne]
  simp

theorem NotificationUpdate_roundtrip (ty : Str) (hty : ty ≠ []) (st : Json)
    (hw : jwf st = true)
    (hl : (writeVal st).length ≤ MAX_XML_PAYLOAD_SIZE) :
    NotificationUpdate.parse
        (NotificationUpdate.CreateTag (NotificationUpdate.fromFields ty st))
      = NotificationUpdate.fromFields ty st := by
  have hxt : (bytes "type" == bytes "xmlns") = false := by decide
  have hxt2 : (bytes "xmlns" = bytes "type")= False := by decide
  unfold NotificationUpdate.fromFields NotificationUpdate.CreateTag
    NotificationUpdate.parse
  have ha : (EncodeXmlJson (bytes "update") st).attrs = [] :=
    EncodeXmlPayload_attrs _ _
  rcases hE : EncodeXmlJson (bytes "update") st with ⟨nE, aE, cE, chE⟩
  have ha2 : aE = [] := by rw [hE] at ha; simpa [Tag.attrs] using ha
  subst ha2
  have hdec : DecodeXmlJson (Tag.mk nE [] cE chE) = some st := by
    rw [← hE]
    exact DecodeXmlJson_EncodeXmlJson _ _ hw hl
  have hdec2 : DecodeXmlJson
      (Tag.mk nE [(bytes "xmlns", charonXmlns), (bytes "type", ty)] cE chE)
      = some st := by
    rw [DecodeXmlJson_children nE cE nE cE
      [(bytes "xmlns", charonXmlns), (bytes "type", ty)] [] chE]
    exact hdec
  simp [Tag.addAttribute, Tag.setAttr, Tag.attrs, Tag.name, Tag.cdata,
    Tag.children, Tag.findAttribute, List.lookup, hxt, hxt2, hty, hdec2]

theorem PongMessage_roundtrip (v : Str) :
    PongMessage.parse (PongMessage.tag (PongMessage.fromVersion v))
      = PongMessage.fromVersion v := by
  have hxv : (bytes "version" == bytes "xmlns") = false := by decide
  unfold PongMessage.fromVersion PongMessage.tag PongMessage.parse
  by_cases hv : v = []
  · subst hv
    simp [Tag.findAttribute, Tag.attrs, List.lookup, hxv]
  · simp [Tag.findAttribute, Tag.attrs, List.lookup, hxv, hv]

/-! ### The waiter loop (`waiterthread.cpp`, `WaiterThread::RunLoop`)

One iteration of the loop, parametrised over the notification type's
state-id extractor.  The iteration receives the result of
`WaitForUpdate` (`none` models a failed call, which backs off) and
produces the new `currentState` together with the state the update
handler is invoked with (`none` when the handler is not fired). -/

def runIteration (extractId : Json → Json) (cur : Json) (upd : Option Json) :
    Json × Option Json :=
  match upd with
  | none => (cur, none)
  | some result =>
      if result.isNull then (cur, none)
      else
        let newId := extractId result
        if ¬ cur.isNull ∧ extractId cur = newId then (cur, none)
        else (result, some result)

/-! ### Client-side notification state (`client.cpp`,
`NotificationState::WaitForChange`) -/

/-- Timeout (in seconds) for `waitforchange` calls on the client side. -/
def WAITFORCHANGE_TIMEOUT : Nat := 5

/-- The client-side state for one notification type: whether any state
has been received and the current state. -/
structure NotifState where
  hasState : Bool
  state : Json

/-- Outcome of `NotificationState::WaitForChange`: either the current
state returned immediately, or whatever the state is after waiting on
the condition variable for up to the given number of seconds. -/
inductive WaitOutcome where
  | immediate (st : Json)
  | waited (timeoutSec : Nat) (st : Json)
deriving DecidableEq

/-- `NotificationState::WaitForChange(known)`: return the current state
immediately when a state exists, `known` is not the always-block
sentinel and the current state's id differs from `known`; otherwise
wait on the condition variable up to the 5 second timeout and return
whatever the state then is (`stateAfterWait`, possibly null). -/
def NotificationState.WaitForChange (alwaysBlockId : Json)
    (extractId : Json → Json) (ns : NotifState) (known : Json)
    (stateAfterWait : Json) : WaitOutcome :=
  if ns.hasState = true ∧ known ≠ alwaysBlockId ∧ known ≠ extractId ns.state
  then .immediate ns.state
  else .waited WAITFORCHANGE_TIMEOUT stateAfterWait

/-- What a call to `Client::Impl::WaitForChange` does: either the
internal RPC error thrown when no server could be discovered, or the
outcome returned by the notification state. -/
inductive WaitCallResult where
  | thrownInternalError
  | returned (o : WaitOutcome)
deriving DecidableEq

/-- `Client::Impl::WaitForChange(type, known)`: the method first calls
`EnsureConnected()`; `jid` is the full server identity it discovered
(`none` when there is no selected server and discovery timed out), in
which case an internal RPC error is thrown.  Otherwise the code
`CHECK`s that the type is among the enabled notification states and
delegates to the located state. -/
def clientWaitForChange (jid : Option Str)
    (states : List (Str × NotifState))
    (alwaysBlockId : Json) (extractId : Json → Json) (ty : Str)
    (known : Json) (stateAfterWait : Json) : Option WaitCallResult :=
  match jid with
  | none => some .thrownInternalError
  | some _ =>
      match states.lookup ty with
      | none => none
      | some ns =>
          some (.returned (NotificationState.WaitForChange alwaysBlockId
            extractId ns known stateAfterWait))

/-! ### The in-flight RPC call record (`client.cpp`, `OngoingRpcCall`
and `RpcResultHandler::handleIqID`) -/

/-- The states of an ongoing RPC call. -/
inductive CallState where
  | WAITING
  | UNAVAILABLE
  | RESPONSE_SUCCESS
  | RESPONSE_ERROR
deriving DecidableEq

/-- IQ subtypes (the ones the handlers distinguish). -/
inductive IqType where
  | get
  | set
  | result
  | error
deriving DecidableEq

/-- The request record: call state plus stored result / error. -/
structure CallData where
  state : CallState
  result : Json
  error : Int × Str × Json
deriving DecidableEq

/-- An incoming IQ as `RpcResultHandler::handleIqID` inspects it: its
subtype, whether it is an error IQ whose stanza error is
service-unavailable, and the `RpcResponse` extension if present. -/
structure IqR where
  subtype : IqType
  serviceUnavailable : Bool
  ext : Option RpcResponse

/-- `RpcResultHandler::handleIqID`: returns the updated record and
whether the condition variable was notified.  A record that is not
WAITING ignores everything; an error IQ with service-unavailable moves
to UNAVAILABLE; a non-result IQ or a missing / invalid response is
ignored; otherwise the response moves the record to RESPONSE_SUCCESS or
RESPONSE_ERROR, storing the result or error. -/
def handleIqID (call : CallData) (iq : IqR) : CallData × Bool :=
  if call.state ≠ .WAITING then (call, false)
  else if iq.subtype = .error ∧ iq.serviceUnavailable then
    ({ call with state := .UNAVAILABLE }, true)
  else if iq.subtype ≠ .result then (call, false)
  else
    match iq.ext with
    | none => (call, false)
    | some ext =>
        if ext.valid = false then (call, false)
        else if ext.success then
          ({ state := .RESPONSE_SUCCESS, result := ext.result,
             error := call.error }, true)
        else
          ({ state := .RESPONSE_ERROR, result := call.result,
             error := (ext.errorCode, ext.errorMsg, ext.errorData) }, true)

/-- Feeding a whole sequence of incoming IQs to the handler, counting
the notifications. -/
def runCall (call : CallData) : List IqR → CallData × Nat
  | [] => (call, 0)
  | iq :: rest =>
      let st := handleIqID call iq
      let r := runCall st.1 rest
      (r.1, (if st.2 then 1 else 0) + r.2)

/-! ### The server (`server.cpp`, `Server::IqAnsweringClient`) -/

/-- The server-side client state the claims need: the version string,
the readiness flag, the pub/sub service identity and the notification
map (type to pub/sub node, a sorted `std::map`). -/
structure ServerState where
  version : Str
  ready : Bool
  service : Str
  notifications : List (Str × Str)

/-- `ConnectNotifications`: connect all notifications, then set the
ready flag. -/
def ConnectNotifications (s : ServerState) : ServerState :=
  { s with ready := true }

/-- `HandleDisconnect` on the server: clear the ready flag (and
disconnect the notifications). -/
def ServerHandleDisconnect (s : ServerState) : ServerState :=
  { s with ready := false }

/-- A directed presence reply to a ping. -/
structure PongPresence where
  available : Bool
  toJid : Str
  pong : PongMessage
  sn : Option SupportedNotifications

/-- Building the SupportedNotifications stanza the server attaches:
`SupportedNotifications(service)` followed by `AddNotification` for
every map entry in order. -/
def buildSupported (service : Str) (ns : List (Str × Str)) :
    SupportedNotifications :=
  ns.foldl (fun sn e => sn.AddNotification e.1 e.2)
    (SupportedNotifications.fromService service)

/-- `Server::IqAnsweringClient::handleMessage` for a message carrying a
ping (a message without a ping extension is ignored entirely): when not
ready the ping is dropped, otherwise a directed Available presence to
the sender carries a Pong with the version and, when notifications
exist, the SupportedNotifications stanza. -/
def handleMessage (s : ServerState) (sender : Str) (hasPing : Bool) :
    Option PongPresence :=
  if hasPing = false then none
  else if s.ready = false then none
  else
    some
      { available := true, toJid := sender,
        pong := PongMessage.fromVersion s.version,
        sn :=
          if s.notifications = [] then none
          else some (buildSupported s.service s.notifications) }

/-- An incoming IQ as the server's `handleIq` sees it (gloox only calls
the handler when the `RpcRequest` extension is present, which the code
`CHECK`s). -/
structure IqS where
  subtype : IqType
  req : RpcRequest

/-- The reply IQ sent by the server. -/
structure IqOut where
  subtype : IqType
  response : RpcResponse

/-- `Server::IqAnsweringClient::handleIq`: drop invalid requests and
non-get IQs silently; otherwise call the backend (which either returns
a result or throws an error with code, message and data) and always
answer with an IQ of type result carrying the corresponding
RpcResponse. -/
def serverHandleIq (backend : Str → Json → Except (Int × Str × Json) Json)
    (iq : IqS) : Option IqOut :=
  if iq.req.valid = false then none
  else if iq.subtype ≠ .get then none
  else
    match backend iq.req.method iq.req.params with
    | .ok r => some ⟨.result, RpcResponse.fromResult r⟩
    | .error e => some ⟨.result, RpcResponse.fromError e.1 e.2.1 e.2.2⟩

/-! ### Client server selection (`client.cpp`,
`Client::Impl::handlePresence` and `SetSelectedServer`) -/

/-- Presence subtypes the client's handler distinguishes. -/
inductive PresSub where
  | available
  | unavailable
  | other
deriving DecidableEq

/-- An incoming presence as the client's handler inspects it. -/
structure PresenceM where
  subtype : PresSub
  fromBare : Str
  fromResource : Str
  pong : Option PongMessage
  sn : Option SupportedNotifications

/-- Client configuration relevant to selection: the required version,
the configured server's bare identity and the enabled notification
types. -/
structure ClientConfig where
  version : Str
  serverBare : Str
  enabled : List Str

/-- The client's selection state: the resource of the selected full
server identity (empty = no selection; the bare part always equals the
configured server). -/
structure ClientState where
  fullServerResource : Str
deriving DecidableEq

/-- `HasFullServerJid`: a non-empty selected resource. -/
def HasFullServerJid (st : ClientState) : Bool :=
  st.fullServerResource ≠ []

/-- The notification-support check of the Available branch: every
enabled type must be declared by the presence's SupportedNotifications
(vacuously true with no enabled types, even without the stanza). -/
def snSupports (sn : Option SupportedNotifications) (enabled : List Str) :
    Bool :=
  enabled.all (fun ty =>
    match sn with
    | none => false
    | some s => (s.notifications.lookup ty).isSome)

/-- Events driving the selection state: presences and stream
disconnects. -/
inductive ClientEvent where
  | presence (p : PresenceM)
  | disconnect

/-- `Client::Impl::handlePresence` (selection aspect) plus
`HandleDisconnect`: an Available presence selects the sender's resource
when it carries a valid Pong of the right version, declares all enabled
notifications, comes from the configured bare identity and no server is
selected yet (first wins); an Unavailable presence from the selected
full identity clears the selection; a disconnect clears it. -/
def clientStep (cfg : ClientConfig) (st : ClientState) :
    ClientEvent → ClientState
  | .disconnect => ⟨[]⟩
  | .presence p =>
      match p.subtype with
      | .available =>
          match p.pong with
          | none => st
          | some pong =>
              if pong.valid = false then st
              else if pong.version ≠ cfg.version then st
              else if snSupports p.sn cfg.enabled = false then st
              else if p.fromBare ≠ cfg.serverBare then st
              else if HasFullServerJid st then st
              else ⟨p.fromResource⟩
      | .unavailable =>
          if p.fromBare = cfg.serverBare
              ∧ p.fromResource = st.fullServerResource
          then ⟨[]⟩
          else st
      | .other => st

/-- A presence that passes every check of the Available branch. -/
def goodPong (cfg : ClientConfig) (p : PresenceM) : Bool :=
  (p.subtype = PresSub.available : Bool)
    && (match p.pong with
        | none => false
        | some pong => pong.valid && (pong.version = cfg.version : Bool))
    && snSupports p.sn cfg.enabled
    && (p.fromBare = cfg.serverBare : Bool)

/-- The selection state after a whole event trace, from the initial
unselected state. -/
def clientRun (cfg : ClientConfig) (evs : List ClientEvent) : ClientState :=
  evs.foldl (clientStep cfg) ⟨[]⟩

/-! ### Lemmas about the behavioural models -/

theorem clientStep_res (cfg : ClientConfig) (st : ClientState)
    (ev : ClientEvent)
    (h : (clientStep cfg st ev).fullServerResource ≠ []) :
    (clientStep cfg st ev).fullServerResource = st.fullServerResource
    ∨ ∃ p, ev = ClientEvent.presence p ∧ goodPong cfg p = true
        ∧ (clientStep cfg st ev).fullServerResource = p.fromResource := by
  cases ev with
  | disconnect => simp [clientStep] at h
  | presence p =>
      cases hsub : p.subtype with
      | other => left; simp [clientStep, hsub]
      | unavailable =>
          simp only [clientStep, hsub]
          split_ifs with hcond
          · simp [clientStep, hsub, hcond] at h
          · left; rfl
      | available =>
          cases hpong : p.pong with
          | none => left; simp [clientStep, hsub, hpong]
          | some pong =>
              simp only [clientStep, hsub, hpong]
              split_ifs with h1 h2 h3 h4 h5
              · left; rfl
              · left; rfl
              · left; rfl
              · left; rfl
              · left; rfl
              · right
                have h1b : pong.valid = true := by simpa using h1
                have h2b : pong.version = cfg.version := by simpa using h2
                have h3b : snSupports p.sn cfg.enabled = true := by
                  simpa using h3
                have h4b : p.fromBare = cfg.serverBare := by simpa using h4
                exact ⟨p, rfl, by simp [goodPong, hsub, hpong, h1b, h2b, h3b, h4b],
                  rfl⟩

theorem clientFold_selected (cfg : ClientConfig) :
    ∀ (evs : List ClientEvent) (st0 : ClientState),
    (evs.foldl (clientStep cfg) st0).fullServerResource ≠ [] →
    (∃ p, ClientEvent.presence p ∈ evs ∧ goodPong cfg p = true
        ∧ p.fromResource = (evs.foldl (clientStep cfg) st0).fullServerResource)
    ∨ (evs.foldl (clientStep cfg) st0).fullServerResource
        = st0.fullServerResource := by
  intro evs
  induction evs with
  | nil => intro st0 h; right; rfl
  | cons ev tl ih =>
      intro st0 h
      rw [List.foldl_cons] at h ⊢
      rcases ih (clientStep cfg st0 ev) h with ⟨p, hmem, hg, hres⟩ | heq
      · left
        exact ⟨p, List.mem_cons_of_mem _ hmem, hg, hres⟩
      · have hne : (clientStep cfg st0 ev).fullServerResource ≠ [] := by
          rw [← heq]; exact h
        rcases clientStep_res cfg st0 ev hne with hsame | ⟨p, hev, hg, hres⟩
        · right
          rw [heq, hsame]
        · left
          exact ⟨p, by rw [hev]; exact List.mem_cons_self _ _, hg,
            by rw [heq, hres]⟩

theorem clientStep_first_wins (cfg : ClientConfig) (st : ClientState)
    (p : PresenceM) (hsel : HasFullServerJid st = true)
    (hav : p.subtype = PresSub.available) :
    clientStep cfg st (.presence p) = st := by
  simp only [clientStep, hav]
  cases p.pong with
  | none => rfl
  | some pong => simp [hsel]

theorem handleIqID_frozen (call : CallData) (iq : IqR)
    (h : call.state ≠ .WAITING) : handleIqID call iq = (call, false) := by
  simp [handleIqID, h]

theorem handleIqID_no_notify (call : CallData) (iq : IqR)
    (h : (handleIqID call iq).2 = false) : (handleIqID call iq).1 = call := by
  obtain ⟨sub, su, ext⟩ := iq
  cases ext with
  | none =>
      unfold handleIqID at h ⊢
      dsimp only at h ⊢
      split_ifs at h ⊢ <;> rfl
  | some e =>
      unfold handleIqID at h ⊢
      dsimp only at h ⊢
      split_ifs at h ⊢ <;> rfl

theorem handleIqID_notify_iff (call : CallData) (iq : IqR) :
    (handleIqID call iq).2 = true ↔
      call.state = .WAITING ∧ (handleIqID call iq).1.state ≠ .WAITING := by
  obtain ⟨sub, su, ext⟩ := iq
  cases ext with
  | none =>
      unfold handleIqID
      dsimp only
      split_ifs <;> simp_all
  | some e =>
      unfold handleIqID
      dsimp only
      split_ifs <;> simp_all

theorem runCall_frozen (iqs : List IqR) (call : CallData)
    (h : call.state ≠ .WAITING) : runCall call iqs = (call, 0) := by
  induction iqs with
  | nil => rfl
  | cons iq tl ih =>
      simp only [runCall, handleIqID_frozen call iq h]
      rw [ih]
      simp

theorem runCall_le_one (iqs : List IqR) (call : CallData) :
    (runCall call iqs).2 ≤ 1 := by
  induction iqs generalizing call with
  | nil => simp [runCall]
  | cons iq tl ih =>
      simp only [runCall]
      cases hb : (handleIqID call iq).2 with
      | false => simpa using ih (handleIqID call iq).1
      | true =>
          have hst : (handleIqID call iq).1.state ≠ .WAITING :=
            ((handleIqID_notify_iff call iq).mp hb).2
          rw [runCall_frozen tl _ hst]
          simp

theorem addSupported_fold (svc : Str) (ns : List (Str × Str)) :
    ∀ (m0 : List (Str × Str)),
    (∀ e ∈ m0, ∀ e2 ∈ ns, ltStr e.1 e2.1 = true) →
    List.Pairwise (fun a b => ltStr a.1 b.1 = true) ns →
    ns.foldl (fun sn e => sn.AddNotification e.1 e.2)
        (⟨true, svc, m0⟩ : SupportedNotifications)
      = ⟨true, svc, m0 ++ ns⟩ := by
  induction ns with
  | nil => intro m0 hs hp; simp
  | cons e tl ih =>
      intro m0 hs hp
      obtain ⟨k, v⟩ := e
      rw [List.pairwise_cons] at hp
      simp only [List.foldl_cons]
      have hstep : SupportedNotifications.AddNotification
          (⟨true, svc, m0⟩ : SupportedNotifications) k v
          = ⟨true, svc, m0 ++ [(k, v)]⟩ := by
        unfold SupportedNotifications.AddNotification
        simp only []
        rw [emplace_append m0 k v
          (fun e he => hs e he (k, v) (List.mem_cons_self _ _))]
      rw [hstep]
      have hs2 : ∀ e ∈ m0 ++ [(k, v)], ∀ e2 ∈ tl, ltStr e.1 e2.1 = true := by
        intro e he e2 he2
        rcases List.mem_append.mp he with h0 | h1
        · exact hs e h0 e2 (List.mem_cons_of_mem _ he2)
        · simp at h1
          subst h1
          exact hp.1 e2 he2
      rw [ih (m0 ++ [(k, v)]) hs2 hp.2]
      simp

theorem buildSupported_eq (svc : Str) (ns : List (Str × Str))
    (hp : List.Pairwise (fun a b => ltStr a.1 b.1 = true) ns) :
    buildSupported svc ns = ⟨true, svc, ns⟩ := by
  unfold buildSupported SupportedNotifications.fromService
  have := addSupported_fold svc ns [] (by simp) hp
  simpa using this

theorem emplace_mem (m : List (Str × Str)) (k v : Str) (e : Str × Str)
    (he : e ∈ emplace m k v) : e ∈ m ∨ e = (k, v) := by
  induction m with
  | nil => simpa [emplace] using he
  | cons e2 tl ih =>
      obtain ⟨k2, v2⟩ := e2
      simp only [emplace] at he
      split_ifs at he with h1 h2
      · rcases List.mem_cons.mp he with h | h
        · right; exact h
        · left; exact h
      · left; exact he
      · rcases List.mem_cons.mp he with h | h
        · left; simp [h]
        · rcases ih h with h3 | h3
          · left; exact List.mem_cons_of_mem _ h3
          · right; exact h3

theorem snotifStep_entries (m : List (Str × Str)) (c : Tag)
    (hm : ∀ e ∈ m, e.1 ≠ [] ∧ e.2 ≠ []) :
    ∀ e ∈ snotifStep m c, e.1 ≠ [] ∧ e.2 ≠ [] := by
  intro e he
  simp only [snotifStep] at he
  split_ifs at he with h1 h2
  · exact hm e he
  · exact hm e he
  · rcases emplace_mem _ _ _ _ he with h | h
    · exact hm e h
    · subst h
      exact ⟨h1, h2⟩

theorem snotifFold_entries (cs : List Tag) (m : List (Str × Str))
    (hm : ∀ e ∈ m, e.1 ≠ [] ∧ e.2 ≠ []) :
    ∀ e ∈ cs.foldl snotifStep m, e.1 ≠ [] ∧ e.2 ≠ [] := by
  induction cs generalizing m with
  | nil => simpa using hm
  | cons c tl ih =>
      simp only [List.foldl_cons]
      exact ih (snotifStep m c) (snotifStep_entries m c hm)

theorem mem_dropWhile_of (p : Nat → Bool) (l : Str) (c : Nat) (hc : c ∈ l)
    (hp : p c = false) : c ∈ l.dropWhile p := by
  induction l with
  | nil => simp at hc
  | cons x xs ih =>
      by_cases hx : p x = true
      · simp only [List.dropWhile, hx]
        rcases List.mem_cons.mp hc with rfl | h
        · rw [hx] at hp
          simp at hp
        · exact ih h
      · have hx2 : p x = false := by simpa using hx
        simp only [List.dropWhile, hx2]
        exact hc

theorem stripEndRev_mem (s : Str) (c : Nat) (hc : c ∈ s)
    (hnb : b64NotBase64 (ascii2bin c) = false) : c ∈ stripEndRev s := by
  induction s with
  | nil => simp at hc
  | cons x xs ih =>
      simp only [stripEndRev]
      split_ifs with hcond
      · rcases List.mem_cons.mp hc with rfl | h
        · rw [hcond.2] at hnb
          simp at hnb
        · exact ih h
      · exact hc

theorem evpDecodeQuads_err :
    ∀ s : Str, (∃ c ∈ s, ascii2bin c = 255) → evpDecodeQuads s = none
  | [], h => by simp at h
  | [_], _ => by rfl
  | [_, _], _ => by rfl
  | [_, _, _], _ => by rfl
  | c1 :: c2 :: c3 :: c4 :: rest, h => by
      obtain ⟨c, hc, ha⟩ := h
      simp only [evpDecodeQuads]
      by_cases hcond : ascii2bin c1 < 128 ∧ ascii2bin c2 < 128
          ∧ ascii2bin c3 < 128 ∧ ascii2bin c4 < 128
      · rw [if_pos hcond]
        obtain ⟨hb1, hb2, hb3, hb4⟩ := hcond
        have hrest : c ∈ rest := by
          rcases List.mem_cons.mp hc with rfl | h2
          · omega
          rcases List.mem_cons.mp h2 with rfl | h3
          · omega
          rcases List.mem_cons.mp h3 with rfl | h4
          · omega
          rcases List.mem_cons.mp h4 with rfl | h5
          · omega
          · exact h5
        rw [evpDecodeQuads_err rest ⟨c, hrest, ha⟩]
      · rw [if_neg hcond]

/-- A byte of the error class 255 (any byte outside the alphabet,
whitespace, newline, carriage return, `=` and `-` classes) anywhere in
the input makes the decode fail: it survives both trimming passes and
poisons its quad. -/
theorem DecodeBase64_nonAlphabet (s : Str) (c : Nat) (hc : c ∈ s)
    (ha : ascii2bin c = 255) : DecodeBase64 s = none := by
  unfold DecodeBase64
  cases hscan : scanPaddings s 0 with
  | none => rfl
  | some p =>
      by_cases hp : 3 < p
      · simp [hp]
      · dsimp only
        rw [if_neg hp]
        have h1 : c ∈ s.dropWhile (fun x => ascii2bin x = 224) := by
          refine mem_dropWhile_of _ s c hc ?_
          simp [ha]
        have h2 : c ∈ (stripEndRev
            (s.dropWhile (fun x => ascii2bin x = 224)).reverse).reverse := by
          rw [List.mem_reverse]
          refine stripEndRev_mem _ c (List.mem_reverse.mpr h1) ?_
          rw [ha]
          rfl
        have h3 : evpDecodeQuads (stripEndRev
            (s.dropWhile (fun x => ascii2bin x = 224)).reverse).reverse
            = none :=
          evpDecodeQuads_err _ ⟨c, h2, ha⟩
        simp only [evpDecodeBlock]
        split_ifs with hlen
        · rfl
        · rw [h3]

/-! ## The checked claims -/

/-- C1: a reachable client state has a non-empty selected resource only
when the event trace contains an Available presence whose valid Pong
matched the required version, whose SupportedNotifications declared
every enabled notification type and whose sender's bare identity is
the configured target — and the selection equals that presence's
resource; moreover once a server is selected, a further Available
presence never changes the selection (first wins). -/
theorem C1_selection_invariant (cfg : ClientConfig) (evs : List ClientEvent)
    (h : (clientRun cfg evs).fullServerResource ≠ []) :
    (∃ p, ClientEvent.presence p ∈ evs ∧ goodPong cfg p = true
        ∧ p.fromResource = (clientRun cfg evs).fullServerResource)
    ∧ (∀ (st : ClientState) (q : PresenceM), HasFullServerJid st = true →
        q.subtype = PresSub.available →
        clientStep cfg st (.presence q) = st) := by
  constructor
  · unfold clientRun at h ⊢
    rcases clientFold_selected cfg evs ⟨[]⟩ h with hex | heq
    · exact hex
    · exact absurd heq h
  · intro st q hsel hav
    exact clientStep_first_wins cfg st q hsel hav

theorem C1_selection_invariant_witness :
    ∃ p, ClientEvent.presence p ∈
        [ClientEvent.presence
          ⟨PresSub.available, bytes "srv", bytes "res",
           some ⟨true, bytes "v1"⟩, none⟩]
      ∧ goodPong ⟨bytes "v1", bytes "srv", []⟩ p = true
      ∧ p.fromResource
          = (clientRun ⟨bytes "v1", bytes "srv", []⟩
              [ClientEvent.presence
                ⟨PresSub.available, bytes "srv", bytes "res",
                 some ⟨true, bytes "v1"⟩, none⟩]).fullServerResource :=
  (C1_selection_invariant ⟨bytes "v1", bytes "srv", []⟩
    [ClientEvent.presence
      ⟨PresSub.available, bytes "srv", bytes "res",
       some ⟨true, bytes "v1"⟩, none⟩] (by decide)).1

/-- C2: for a valid RpcRequest IQ of type get, the server's reply IQ
always has type result: a backend success is answered with an
RpcResponse-success carrying the backend's result, a backend error
with an RpcResponse-error carrying that code, message and data; a
backend-reported error never yields an IQ of type error. -/
theorem C2_result_not_error
    (backend : Str → Json → Except (Int × Str × Json) Json) (iq : IqS)
    (hv : iq.req.valid = true) (hg : iq.subtype = .get) :
    (∀ out, serverHandleIq backend iq = some out →
        out.subtype = IqType.result)
    ∧ (∀ r, backend iq.req.method iq.req.params = .ok r →
        serverHandleIq backend iq
          = some ⟨.result, RpcResponse.fromResult r⟩)
    ∧ (∀ c m d, backend iq.req.method iq.req.params = .error (c, m, d) →
        serverHandleIq backend iq
          = some ⟨.result, RpcResponse.fromError c m d⟩) := by
  refine ⟨?_, ?_, ?_⟩
  · intro out hout
    unfold serverHandleIq at hout
    rw [if_neg (by simp [hv]), if_neg (by simp [hg])] at hout
    cases hb : backend iq.req.method iq.req.params with
    | ok r =>
        rw [hb] at hout
        cases hout
        rfl
    | error e =>
        rw [hb] at hout
        cases hout
        rfl
  · intro r hb
    unfold serverHandleIq
    rw [if_neg (by simp [hv]), if_neg (by simp [hg]), hb]
  · intro c m d hb
    unfold serverHandleIq
    rw [if_neg (by simp [hv]), if_neg (by simp [hg]), hb]

theorem C2_result_not_error_witness :
    serverHandleIq (fun _ _ => Except.ok Json.null)
        ⟨IqType.get, RpcRequest.fromFields (bytes "m") Json.null⟩
      = some ⟨IqType.result, RpcResponse.fromResult Json.null⟩ :=
  (C2_result_not_error (fun _ _ => Except.ok Json.null)
    ⟨IqType.get, RpcRequest.fromFields (bytes "m") Json.null⟩ rfl rfl).2.1
    Json.null rfl

/-- C3: every stanza built from semantic fields round-trips through its
serializer and the parsing constructor to a valid instance with equal
fields: RpcRequest (non-empty method, object / array / null params),
RpcResponse in both the success and the error branch (empty message and
null data included), Pong with or without version, SupportedNotifications
with any sorted map of entries, and NotificationUpdate. -/
theorem C3_stanza_roundtrip
    (m : Str) (p : Json) (hm : m ≠ []) (hp : p.isObjArrNull = true)
    (hpw : jwf p = true) (hpl : (writeVal p).length ≤ MAX_XML_PAYLOAD_SIZE)
    (res : Json) (hrw : jwf res = true)
    (hrl : (writeVal res).length ≤ MAX_XML_PAYLOAD_SIZE)
    (c : Int) (msg : Str) (d : Json) (hdw : jwf d = true)
    (hdl : (writeVal d).length ≤ MAX_XML_PAYLOAD_SIZE)
    (ver : Str) (svc : Str) (hsvc : svc ≠ [])
    (ns : List (Str × Str))
    (hns : List.Pairwise (fun a b => ltStr a.1 b.1 = true) ns)
    (hne : ∀ e ∈ ns, e.1 ≠ [] ∧ e.2 ≠ [])
    (ty : Str) (hty : ty ≠ []) (st : Json) (hsw : jwf st = true)
    (hsl : (writeVal st).length ≤ MAX_XML_PAYLOAD_SIZE) :
    RpcRequest.parse (RpcRequest.tag (RpcRequest.fromFields m p))
        = RpcRequest.fromFields m p
    ∧ RpcResponse.parse (RpcResponse.tag (RpcResponse.fromResult res))
        = RpcResponse.fromResult res
    ∧ RpcResponse.parse (RpcResponse.tag (RpcResponse.fromError c msg d))
        = RpcResponse.fromError c msg d
    ∧ PongMessage.parse (PongMessage.tag (PongMessage.fromVersion ver))
        = PongMessage.fromVersion ver
    ∧ SupportedNotifications.parse
          (SupportedNotifications.tag ⟨true, svc, ns⟩) = ⟨true, svc, ns⟩
    ∧ NotificationUpdate.parse
          (NotificationUpdate.CreateTag (NotificationUpdate.fromFields ty st))
        = NotificationUpdate.fromFields ty st :=
  ⟨RpcRequest_roundtrip m p hm hp hpw hpl,
   RpcResponse_result_roundtrip res hrw hrl,
   RpcResponse_error_roundtrip c msg d hdw hdl,
   PongMessage_roundtrip ver,
   SupportedNotifications_roundtrip svc hsvc ns hns hne,
   NotificationUpdate_roundtrip ty hty st hsw hsl⟩

theorem C3_stanza_roundtrip_witness :
    RpcRequest.parse
        (RpcRequest.tag (RpcRequest.fromFields (bytes "m") Json.null))
      = RpcRequest.fromFields (bytes "m") Json.null :=
  (C3_stanza_roundtrip (bytes "m") Json.null (by decide) rfl rfl (by decide)
    Json.null rfl (by decide)
    0 [] Json.null rfl (by decide)
    [] (bytes "s") (by decide)
    [(bytes "a", bytes "n")] (by simp) (by decide)
    (bytes "t") (by decide) Json.null rfl (by decide)).1

/-- C4: the payload codec round-trips every byte string of length at
most 64 MiB through encode / decode, and a wrapper element whose
children decode to more than 64 MiB of accumulated bytes fails to
decode. -/
theorem C4_payload_codec (name s : Str) (hok : strOk s = true)
    (hlen : s.length ≤ MAX_XML_PAYLOAD_SIZE) (t : Tag) (n : Nat)
    (hs : childSizes t.children = some n)
    (hover : MAX_XML_PAYLOAD_SIZE < n) :
    DecodeXmlPayload (EncodeXmlPayload name s) = some s
    ∧ DecodeXmlPayload t = none :=
  ⟨DecodeXmlPayload_EncodeXmlPayload name s hok hlen,
   DecodeXmlPayload_overflow t n hs hover⟩

theorem childSizes_raw_singleton (a : List (Str × Str)) (cd : Str)
    (ch : List Tag) :
    childSizes [Tag.mk (bytes "raw") a cd ch] = some cd.length := by
  simp [childSizes, DecodePayloadTag_raw]

theorem C4_payload_codec_witness :
    DecodeXmlPayload (EncodeXmlPayload (bytes "foo") []) = some []
    ∧ DecodeXmlPayload (Tag.mk (bytes "wrap") [] []
        [Tag.mk (bytes "raw") [] (List.replicate 67108865 0) []]) = none :=
  C4_payload_codec (bytes "foo") [] rfl (by decide)
    (Tag.mk (bytes "wrap") [] []
      [Tag.mk (bytes "raw") [] (List.replicate 67108865 0) []])
    67108865
    (by
      have h := childSizes_raw_singleton [] (List.replicate 67108865 0) []
      rw [List.length_replicate] at h
      exact h)
    (by norm_num [MAX_XML_PAYLOAD_SIZE])

/-- C5: corrected behaviour of the base64 decoder: leading space and
tab are ignored, as is a trailing run of whitespace, newline,
carriage-return and dash bytes — but a leading newline or carriage
return is rejected (EVP_DecodeBlock trims only the space/tab class at
the start), and so is embedded whitespace; padding in the middle, more
than three paddings, any error-class (255) byte anywhere and the input
AAA alone are rejected; a trailing run of the EOF marker (a dash) is
stripped and accepted. -/
theorem C5_base64_decoder :
    DecodeBase64 ([32, 9] ++ bytes "AAAA" ++ [10, 13, 32]) = some [0, 0, 0]
    ∧ DecodeBase64 (10 :: bytes "AAAA") = none
    ∧ DecodeBase64 (13 :: bytes "AAAA") = none
    ∧ DecodeBase64 (bytes "AA AA") = none
    ∧ DecodeBase64 (bytes "AA=A") = none
    ∧ DecodeBase64 (bytes "AAAA====") = none
    ∧ (∀ (s : Str) (c : Nat), c ∈ s → ascii2bin c = 255 →
        DecodeBase64 s = none)
    ∧ DecodeBase64 (bytes "AAA") = none
    ∧ DecodeBase64 (bytes "AAAA-") = some [0, 0, 0] :=
  ⟨by decide, by decide, by decide, by decide, by decide, by decide,
   fun s c hc ha => DecodeBase64_nonAlphabet s c hc ha,
   by decide, by decide⟩

/-- C5 counterexample: embedded whitespace in otherwise-valid base64 is
rejected (refuting the accept clause of the original claim), while the
plain text decodes fine and a trailing non-alphabet dash is accepted
(refuting the blanket non-alphabet rejection). -/
theorem C5_base64_counterexample :
    DecodeBase64 (bytes "AA AA") = none
    ∧ DecodeBase64 (bytes "AAAA") = some [0, 0, 0]
    ∧ DecodeBase64 (bytes "AAAA-") = some [0, 0, 0] := by decide

/-- C6: in one waiter-loop iteration a null result causes no update;
a result whose extracted id equals the current state's id leaves the
state unchanged and does not fire the handler; only a differing id (or
no current state) replaces the state and fires the handler with the new
state; and two consecutive updates with equal state-id never fire the
handler twice. -/
theorem C6_waiter_iteration (extractId : Json → Json) (cur r1 r2 : Json) :
    (runIteration extractId cur (some Json.null) = (cur, none))
    ∧ (r1.isNull = false → cur.isNull = false →
        extractId cur = extractId r1 →
        runIteration extractId cur (some r1) = (cur, none))
    ∧ (r1.isNull = false →
        (cur.isNull = true ∨ extractId cur ≠ extractId r1) →
        runIteration extractId cur (some r1) = (r1, some r1))
    ∧ (r1.isNull = false → r2.isNull = false →
        extractId r2 = extractId r1 →
        (runIteration extractId
            (runIteration extractId cur (some r1)).1 (some r2)).2 = none) := by
  refine ⟨?_, ?_, ?_, ?_⟩
  · simp [runIteration, Json.isNull]
  · intro h1 h2 h3
    simp [runIteration, h1, h2, h3]
  · intro h1 h2
    rcases h2 with h2 | h2
    · simp [runIteration, h1, h2]
    · simp [runIteration, h1, h2]
  · intro h1 h2 h3
    by_cases hnull : cur.isNull = true
    · have hfirst : runIteration extractId cur (some r1) = (r1, some r1) := by
        simp [runIteration, h1, hnull]
      rw [hfirst]
      simp [runIteration, h2, h1, h3]
    · by_cases heq : extractId cur = extractId r1
      · have hfirst : runIteration extractId cur (some r1) = (cur, none) := by
          simp [runIteration, h1, hnull, heq]
        rw [hfirst]
        simp [runIteration, h2, hnull, heq.trans h3.symm]
      · have hfirst : runIteration extractId cur (some r1) = (r1, some r1) := by
          simp [runIteration, h1, heq]
        rw [hfirst]
        simp [runIteration, h2, h1, h3]

theorem C6_waiter_iteration_witness :
    (runIteration (fun j => j)
        (runIteration (fun j => j) Json.null (some (Json.bool true))).1
        (some (Json.bool true))).2 = none :=
  (C6_waiter_iteration (fun j => j) Json.null (Json.bool true)
    (Json.bool true)).2.2.2 rfl rfl rfl

/-- C7: corrected WaitForChange behaviour: when the client has a
discovered full server identity, a call on an enabled notification type
returns the current state immediately exactly when a state exists, the
known id is not the always-block sentinel and the current state's id
differs from the known id, and in every other connected case waits up
to the fixed 5 second timeout and returns whatever the state then is;
but when no full server identity can be discovered, the call throws
an internal RPC error regardless of the notification state. -/
theorem C7_waitforchange (states : List (Str × NotifState))
    (alwaysBlockId : Json) (extractId : Json → Json) (ty : Str)
    (known stateAfterWait : Json) (ns : NotifState)
    (hen : states.lookup ty = some ns) :
    (∀ r : Str, clientWaitForChange (some r) states alwaysBlockId extractId
          ty known stateAfterWait
        = some (WaitCallResult.returned (WaitOutcome.immediate ns.state))
      ↔ ns.hasState = true ∧ known ≠ alwaysBlockId
          ∧ known ≠ extractId ns.state)
    ∧ (∀ r : Str, ¬(ns.hasState = true ∧ known ≠ alwaysBlockId
          ∧ known ≠ extractId ns.state) →
        clientWaitForChange (some r) states alwaysBlockId extractId ty
            known stateAfterWait
          = some (WaitCallResult.returned
              (WaitOutcome.waited WAITFORCHANGE_TIMEOUT stateAfterWait)))
    ∧ clientWaitForChange none states alwaysBlockId extractId ty known
          stateAfterWait
        = some WaitCallResult.thrownInternalError := by
  refine ⟨?_, ?_, rfl⟩
  · intro r
    unfold clientWaitForChange NotificationState.WaitForChange
    rw [hen]
    dsimp only
    by_cases hcond : ns.hasState = true ∧ known ≠ alwaysBlockId
        ∧ known ≠ extractId ns.state
    · rw [if_pos hcond]
      exact ⟨fun _ => hcond, fun _ => rfl⟩
    · rw [if_neg hcond]
      refine ⟨fun he => ?_, fun hc => absurd hc hcond⟩
      simp at he
  · intro r hc
    unfold clientWaitForChange NotificationState.WaitForChange
    rw [hen]
    dsimp only
    rw [if_neg hc]

theorem C7_waitforchange_witness :
    clientWaitForChange (some (bytes "r")) [(bytes "t", ⟨true, Json.int 3⟩)]
        (Json.str (bytes "always block")) (fun j => j) (bytes "t")
        (Json.int 2) Json.null
      = some (WaitCallResult.returned (WaitOutcome.immediate (Json.int 3))) :=
  (((C7_waitforchange [(bytes "t", ⟨true, Json.int 3⟩)]
      (Json.str (bytes "always block")) (fun j => j) (bytes "t")
      (Json.int 2) Json.null ⟨true, Json.int 3⟩ rfl).1) (bytes "r")).mpr
    (by refine ⟨rfl, by decide, by decide⟩)

/-- C7 counterexample: with no discoverable server identity the call
throws an internal RPC error even though the enabled notification state
satisfies every immediate-return condition of the original claim (a
state exists, the known id is not the always-block sentinel, and the
ids differ) — so the call neither returns the state immediately nor
waits on the condition variable. -/
theorem C7_waitforchange_counterexample :
    clientWaitForChange none [(bytes "t", ⟨true, Json.int 3⟩)]
        (Json.str (bytes "always block")) (fun j => j) (bytes "t")
        (Json.int 2) Json.null
      = some WaitCallResult.thrownInternalError
    ∧ (⟨true, Json.int 3⟩ : NotifState).hasState = true
    ∧ Json.int 2 ≠ Json.str (bytes "always block")
    ∧ Json.int 2 ≠ (fun j => j) (Json.int 3) :=
  ⟨rfl, rfl, by decide, by decide⟩

/-- C8: a ping message is answered only when the server is ready: the
reply is a directed Available Pong presence carrying the version and,
when notifications exist, a SupportedNotifications stanza naming the
pub/sub service and every type-to-node pair; when not ready the ping is
dropped without a reply. -/
theorem C8_ping_reply (s : ServerState) (sender : Str)
    (hp : List.Pairwise (fun a b => ltStr a.1 b.1 = true) s.notifications) :
    (s.ready = false → handleMessage s sender true = none)
    ∧ (s.ready = true →
        handleMessage s sender true
          = some ⟨true, sender, PongMessage.fromVersion s.version,
              if s.notifications = [] then none
              else some ⟨true, s.service, s.notifications⟩⟩) := by
  constructor
  · intro hr
    simp [handleMessage, hr]
  · intro hr
    unfold handleMessage
    rw [if_neg (by simp), if_neg (by simp [hr]),
      buildSupported_eq s.service s.notifications hp]

theorem C8_ping_reply_witness :
    handleMessage ⟨bytes "v", true, bytes "svc", [(bytes "a", bytes "na")]⟩
        (bytes "bob") true
      = some ⟨true, bytes "bob", PongMessage.fromVersion (bytes "v"),
          some ⟨true, bytes "svc", [(bytes "a", bytes "na")]⟩⟩ := by
  have h := (C8_ping_reply
    ⟨bytes "v", true, bytes "svc", [(bytes "a", bytes "na")]⟩
    (bytes "bob") (by simp)).2 rfl
  simpa using h

/-- C9: an in-flight request record leaves WAITING at most once: a
record that is no longer WAITING ignores every further IQ (keeping its
stored result and error), the condition variable is notified exactly
when an IQ moves the record out of WAITING, an ignored IQ changes
nothing, and over any sequence of incoming IQs at most one notification
happens. -/
theorem C9_record_single_transition (call : CallData) (iq : IqR)
    (iqs : List IqR) :
    (call.state ≠ .WAITING → runCall call iqs = (call, 0))
    ∧ ((handleIqID call iq).2 = true ↔
        call.state = .WAITING ∧ (handleIqID call iq).1.state ≠ .WAITING)
    ∧ ((handleIqID call iq).2 = false → (handleIqID call iq).1 = call)
    ∧ (runCall call iqs).2 ≤ 1 :=
  ⟨fun h => runCall_frozen iqs call h,
   handleIqID_notify_iff call iq,
   handleIqID_no_notify call iq,
   runCall_le_one iqs call⟩

theorem C9_record_single_transition_witness :
    runCall ⟨CallState.UNAVAILABLE, Json.null, (0, [], Json.null)⟩
        [⟨IqType.result, false, none⟩]
      = (⟨CallState.UNAVAILABLE, Json.null, (0, [], Json.null)⟩, 0) :=
  (C9_record_single_transition
    ⟨CallState.UNAVAILABLE, Json.null, (0, [], Json.null)⟩
    ⟨IqType.result, false, none⟩ [⟨IqType.result, false, none⟩]).1
    (by decide)

/-- C10: corrected parse-validity: a parsed SupportedNotifications is
valid exactly when the service attribute is non-empty — entries with
empty type or node are skipped (never stored) and duplicates keep the
first — and a parsed RpcResponse taking the error branch is valid
exactly when the code attribute is present and the data child, when
there is one, decodes as a JSON payload; the code value is read with
istringstream semantics (0 for a malformed attribute). -/
theorem C10_parse_validity (t : Tag) :
    ((SupportedNotifications.parse t).valid = true
      ↔ Tag.findAttribute t (bytes "service") ≠ [])
    ∧ (∀ e ∈ (SupportedNotifications.parse t).notifications,
        e.1 ≠ [] ∧ e.2 ≠ [])
    ∧ (∀ outer, Tag.findChild t (bytes "result") = none →
        Tag.findChild t (bytes "error") = some outer →
        Tag.hasAttribute outer (bytes "code") = false →
        (RpcResponse.parse t).valid = false)
    ∧ (∀ outer, Tag.findChild t (bytes "result") = none →
        Tag.findChild t (bytes "error") = some outer →
        Tag.hasAttribute outer (bytes "code") = true →
        Tag.findChild outer (bytes "data") = none →
        RpcResponse.parse t
          = ⟨true, false, Json.null,
             readIntAttr (Tag.findAttribute outer (bytes "code")),
             (match Tag.findChild outer (bytes "message") with
              | none => []
              | some ch => ch.cdata), Json.null⟩)
    ∧ (∀ outer dc d, Tag.findChild t (bytes "result") = none →
        Tag.findChild t (bytes "error") = some outer →
        Tag.hasAttribute outer (bytes "code") = true →
        Tag.findChild outer (bytes "data") = some dc →
        DecodeXmlJson dc = some d →
        RpcResponse.parse t
          = ⟨true, false, Json.null,
             readIntAttr (Tag.findAttribute outer (bytes "code")),
             (match Tag.findChild outer (bytes "message") with
              | none => []
              | some ch => ch.cdata), d⟩)
    ∧ (∀ outer dc, Tag.findChild t (bytes "result") = none →
        Tag.findChild t (bytes "error") = some outer →
        Tag.hasAttribute outer (bytes "code") = true →
        Tag.findChild outer (bytes "data") = some dc →
        DecodeXmlJson dc = none →
        (RpcResponse.parse t).valid = false) := by
  refine ⟨?_, ?_, ?_, ?_, ?_, ?_⟩
  · by_cases hs : Tag.findAttribute t (bytes "service") = []
    · simp [SupportedNotifications.parse, hs]
    · simp [SupportedNotifications.parse, hs]
  · intro e he
    by_cases hs : Tag.findAttribute t (bytes "service") = []
    · simp [SupportedNotifications.parse, hs] at he
    · have he2 : e ∈ (Tag.findChildren t (bytes "notification")).foldl
          snotifStep [] := by
        simpa [SupportedNotifications.parse, hs] using he
      exact snotifFold_entries (Tag.findChildren t (bytes "notification")) []
        (by simp) e he2
  · intro outer h1 h2 h3
    unfold RpcResponse.parse
    rw [h1, h2]
    dsimp only
    rw [if_pos h3]
  · intro outer h1 h2 h3 h4
    unfold RpcResponse.parse
    rw [h1, h2]
    dsimp only
    rw [if_neg (by simp [h3])]
    rw [h4]
  · intro outer dc d h1 h2 h3 h4 h5
    unfold RpcResponse.parse
    rw [h1, h2]
    dsimp only
    rw [if_neg (by simp [h3])]
    rw [h4]
    dsimp only
    rw [h5]
  · intro outer dc h1 h2 h3 h4 h5
    unfold RpcResponse.parse
    rw [h1, h2]
    dsimp only
    rw [if_neg (by simp [h3])]
    rw [h4]
    dsimp only
    rw [h5]

theorem C10_parse_validity_witness :
    (SupportedNotifications.parse
        (Tag.mk (bytes "notifications") [(bytes "service", bytes "s")] []
          [Tag.mk (bytes "notification") [] (bytes "node") []])).valid
      = true :=
  ((C10_parse_validity
    (Tag.mk (bytes "notifications") [(bytes "service", bytes "s")] []
      [Tag.mk (bytes "notification") [] (bytes "node") []])).1).mpr
    (by decide)

/-- C10 counterexample: a parsed SupportedNotifications whose only
notification entry lacks a type is still valid (the entry is skipped,
refuting the claimed valid-only-when-well-typed condition), and a
parsed RpcResponse error with a non-numeric code attribute is valid
with error code 0. -/
theorem C10_parse_validity_counterexample :
    (SupportedNotifications.parse
        (Tag.mk (bytes "notifications") [(bytes "service", bytes "s")] []
          [Tag.mk (bytes "notification") [] (bytes "node") []])).valid
      = true
    ∧ RpcResponse.parse (Tag.mk (bytes "response") [] []
        [Tag.mk (bytes "error") [(bytes "code", bytes "xyz")] [] []])
      = ⟨true, false, Json.null, 0, [], Json.null⟩ := by decide

end Charon
